import Mathlib

set_option maxHeartbeats 1000000
set_option maxRecDepth 10000

/-!
Shallow embedding of the patchelf-stripped section-replacement engine
(src/unnamed/part_000, 64-bit instantiation of the ElfFile template).

Bytes are modelled as List Nat (each element one byte), section names as
List Char, the pending-edit map (std::map from section name to string)
as an association list with insert-or-replace, and fatal errors
(exceptions) as Except String.  Machine integers are Nat; the constructor
overflow checks, which are about 64-bit size_t arithmetic, carry explicit
2^64 bounds.  Fuel parameters replace loops whose C++ termination is not
structural; the fuel is always generous enough that running out models a
non-terminating (undefined-behaviour) execution of the original.
-/

namespace Patchelf

abbrev Err := String

/-- ELF constants used by the engine (values from elf.h). -/
def ET_EXEC : Nat := 2
def ET_DYN : Nat := 3

def SHT_PROGBITS : Nat := 1
def SHT_SYMTAB : Nat := 2
def SHT_RELA : Nat := 4
def SHT_NOTE : Nat := 7
def SHT_NOBITS : Nat := 8
def SHT_REL : Nat := 9
def SHT_DYNSYM : Nat := 11

def SHN_LORESERVE : Nat := 0xff00

def PT_LOAD : Nat := 1
def PT_DYNAMIC : Nat := 2
def PT_INTERP : Nat := 3
def PT_NOTE : Nat := 4
def PT_PHDR : Nat := 6
def PT_GNU_PROPERTY : Nat := 0x6474e553
def PT_MIPS_ABIFLAGS : Nat := 0x70000003

def PF_W : Nat := 2
def PF_R : Nat := 4

def STT_SECTION : Nat := 3

def DT_NULL : Nat := 0
def DT_HASH : Nat := 4
def DT_STRTAB : Nat := 5
def DT_SYMTAB : Nat := 6
def DT_RELA : Nat := 7
def DT_STRSZ : Nat := 10
def DT_REL : Nat := 17
def DT_JMPREL : Nat := 23
def DT_VERSYM : Nat := 0x6ffffff0
def DT_GNU_HASH : Nat := 0x6ffffef5
def DT_VERNEED : Nat := 0x6ffffffe
def DT_MIPS_RLD_MAP_REL : Nat := 0x70000035
def DT_MIPS_XHASH : Nat := 0x70000036

def EM_SPARC : Nat := 2
def EM_MIPS : Nat := 8
def EM_PPC : Nat := 20
def EM_PPC64 : Nat := 21
def EM_SPARCV9 : Nat := 43
def EM_IA_64 : Nat := 50
def EM_AARCH64 : Nat := 183
def EM_TILEGX : Nat := 191
def EM_ALPHA : Nat := 0x9026
def EM_LOONGARCH : Nat := 258

/-- sizeof(Elf64_Ehdr). -/
def ehdrSize : Nat := 64
/-- sizeof(Elf64_Phdr). -/
def phdrSize : Nat := 56
/-- sizeof(Elf64_Shdr). -/
def shdrSize : Nat := 64
/-- sizeof(Elf64_Sym). -/
def symSize : Nat := 24
/-- sizeof(Elf64_Dyn). -/
def dynSize : Nat := 16

/-- Modelled from the spec: the section alignment member is not declared in
the stripped headers under src/; per the spec (section 3) it is the ELF word
alignment, i.e. 8 for the 64-bit instantiation embedded here. -/
def sectionAlignment : Nat := 8

/-- A program header (Elf64_Phdr), fields as Nat. -/
structure Phdr where
  p_type : Nat
  p_flags : Nat
  p_offset : Nat
  p_vaddr : Nat
  p_paddr : Nat
  p_filesz : Nat
  p_memsz : Nat
  p_align : Nat
deriving DecidableEq, Repr

instance : Inhabited Phdr := ⟨⟨0, 0, 0, 0, 0, 0, 0, 0⟩⟩

/-- A section header (Elf64_Shdr), fields as Nat. -/
structure Shdr where
  sh_name : Nat
  sh_type : Nat
  sh_flags : Nat
  sh_addr : Nat
  sh_offset : Nat
  sh_size : Nat
  sh_link : Nat
  sh_info : Nat
  sh_addralign : Nat
  sh_entsize : Nat
deriving DecidableEq, Repr

instance : Inhabited Shdr := ⟨⟨0, 0, 0, 0, 0, 0, 0, 0, 0, 0⟩⟩

/-- A symbol-table entry (Elf64_Sym), fields as Nat. -/
structure Sym where
  st_name : Nat
  st_info : Nat
  st_other : Nat
  st_shndx : Nat
  st_value : Nat
  st_size : Nat
deriving DecidableEq, Repr

/-- The ElfFile object state: the byte buffer plus the parsed, owned copies
of the headers, the section-name string table, the old-index-to-name map and
the pending-edit map. -/
structure ElfFile where
  fileContents : List Nat
  littleEndian : Bool
  e_type : Nat
  e_machine : Nat
  e_phoff : Nat
  e_shoff : Nat
  e_phnum : Nat
  e_phentsize : Nat
  e_shnum : Nat
  e_shentsize : Nat
  e_shstrndx : Nat
  phdrs : List Phdr
  shdrs : List Shdr
  sectionNames : List Char
  sectionsByOldIndex : List (List Char)
  replacedSections : List (List Char × List Nat)
  clobberOldSections : Bool
deriving DecidableEq, Repr

/-- static uint64_t roundUp(uint64_t n, uint64_t m): note the special case
roundUp 0 m = m, exactly as the source. -/
def roundUp (n m : Nat) : Nat :=
  if n = 0 then m else ((n - 1) / m + 1) * m

/-- std::string::resize / std::vector::resize with value-initialisation:
keep the first n elements, pad with zero bytes on growth. -/
def listResize (s : List Nat) (n : Nat) : List Nat :=
  s.take n ++ List.replicate (n - s.length) 0

/-- Writing a block of bytes into the buffer at an offset (memcpy).  The
write is clipped to the existing buffer, so the buffer length never
changes; an out-of-range portion of a write is undefined behaviour in the
C++ original. -/
def storeBytes (l : List Nat) (off : Nat) (data : List Nat) : List Nat :=
  l.take off ++ data.take (l.length - off) ++ l.drop (off + data.length)

/-- Reading one byte; out-of-range reads (undefined behaviour in C++)
yield 0. -/
def readByte (l : List Nat) (i : Nat) : Nat := l.getD i 0

/-- rdi: read an n-byte integer stored at off, assembling the bytes
according to the recorded endianness (stdlib.hpp rdi). -/
def readInt (le : Bool) (l : List Nat) (off n : Nat) : Nat :=
  (List.range n).foldl
    (fun acc k => acc + readByte l (off + k) * 2 ^ (8 * (if le then k else n - 1 - k))) 0

/-- Serialising an n-byte integer.  Per spec section 9 the source write
path does not byte-swap (host little-endian assumed), so encoding is
little-endian regardless of the file flag. -/
def encodeInt (v n : Nat) : List Nat :=
  (List.range n).map (fun k => v / 2 ^ (8 * k) % 256)

/-- Checked multiplication in 64-bit size_t (__builtin_mul_overflow). -/
def checkedMul (a b : Nat) : Option Nat :=
  if a * b < 2 ^ 64 then some (a * b) else none

/-- Checked addition in 64-bit size_t (__builtin_add_overflow). -/
def checkedAdd (a b : Nat) : Option Nat :=
  if a + b < 2 ^ 64 then some (a + b) else none

/-- std::vector::at — bounds-checked access, throws on out-of-range. -/
def elfAt {α : Type} (l : List α) (i : Nat) : Except Err α :=
  match l.get? i with
  | some x => .ok x
  | none => .error "vector index out of range"

/-- std::map::find on the pending-edit map. -/
def secLookup (m : List (List Char × List Nat)) (k : List Char) : Option (List Nat) :=
  match m with
  | [] => none
  | (k2, v) :: rest => if k2 = k then some v else secLookup rest k

/-- std::map insert-or-assign on the pending-edit map (operator[] plus
assignment); a key occurs at most once. -/
def secInsert (m : List (List Char × List Nat)) (k : List Char) (v : List Nat) :
    List (List Char × List Nat) :=
  match m with
  | [] => [(k, v)]
  | (k2, v2) :: rest => if k2 = k then (k2, v) :: rest else (k2, v2) :: secInsert rest k v

def nullChar : Char := Char.ofNat 0

def interpName : List Char := ".interp".toList
def dynamicName : List Char := ".dynamic".toList
def dynstrName : List Char := ".dynstr".toList
def dynsymName : List Char := ".dynsym".toList
def shstrtabName : List Char := ".shstrtab".toList

/-- getSectionName on an explicit string table: read the C string at
sh_name, with the bound check of the source. -/
def sectionNameOf (names : List Char) (shdr : Shdr) : Except Err (List Char) :=
  if shdr.sh_name ≥ names.length then .error "section name offset out of bounds"
  else .ok ((names.drop shdr.sh_name).takeWhile (fun c => c != nullChar))

/-- ElfFile::getSectionName. -/
def getSectionName (e : ElfFile) (shdr : Shdr) : Except Err (List Char) :=
  sectionNameOf e.sectionNames shdr

/-- The loop of ElfFile::getSectionIndex: scan indices 1..e_shnum-1,
return the first whose name matches, else 0. -/
def getSectionIndexGo (e : ElfFile) (name : List Char) :
    Nat → Nat → Except Err Nat
  | _, 0 => .ok 0
  | i, r + 1 => do
    let shdr ← elfAt e.shdrs i
    let n ← getSectionName e shdr
    if n = name then .ok i else getSectionIndexGo e name (i + 1) r

/-- ElfFile::getSectionIndex — 0 also means absent (the null section is a
sentinel). -/
def getSectionIndex (e : ElfFile) (name : List Char) : Except Err Nat :=
  getSectionIndexGo e name 1 (e.e_shnum - 1)

/-- ElfFile::tryFindSectionHeader. -/
def tryFindSectionHeader (e : ElfFile) (name : List Char) : Except Err (Option Shdr) := do
  let i ← getSectionIndex e name
  if i ≠ 0 then do
    let s ← elfAt e.shdrs i
    return some s
  else return none

/-- ElfFile::findSectionHeader (the source message names the section and
hints at static linking; the message text is abbreviated here). -/
def findSectionHeader (e : ElfFile) (name : List Char) : Except Err Shdr := do
  match ← tryFindSectionHeader e name with
  | some s => .ok s
  | none => .error "cannot find section"

/-- ElfFile::hasReplacedSection. -/
def hasReplacedSection (e : ElfFile) (name : List Char) : Bool :=
  (secLookup e.replacedSections name).isSome

/-- ElfFile::canReplaceSection: true iff the name is .interp or the
section type is not SHT_PROGBITS. -/
def canReplaceSection (e : ElfFile) (name : List Char) : Except Err Bool := do
  let shdr ← findSectionHeader e name
  return (name == interpName || shdr.sh_type != SHT_PROGBITS)

/-- extractString: copy size bytes at offset out of the buffer. -/
def extractBytes (contents : List Nat) (off size : Nat) : List Nat :=
  (contents.drop off).take size

/-- ElfFile::replaceSection(name, size): start from the existing edit if
present, else from the on-disk bytes of the section; resize to size and
store back under the name. -/
def replaceSection (e : ElfFile) (name : List Char) (size : Nat) : Except Err ElfFile :=
  match secLookup e.replacedSections name with
  | some s =>
    .ok { e with replacedSections := secInsert e.replacedSections name (listResize s size) }
  | none =>
    (findSectionHeader e name) >>= fun shdr =>
    .ok { e with replacedSections := secInsert e.replacedSections name (listResize (extractBytes e.fileContents shdr.sh_offset shdr.sh_size) size) }

/-- ElfFile::getPageSize: selected from e_machine (the forced page-size
override has no setter in this stripped source and keeps its default -1,
so the table is always used). -/
def getPageSize (e : ElfFile) : Nat :=
  if e.e_machine = EM_ALPHA ∨ e.e_machine = EM_IA_64 ∨ e.e_machine = EM_MIPS ∨
     e.e_machine = EM_PPC ∨ e.e_machine = EM_PPC64 ∨ e.e_machine = EM_AARCH64 ∨
     e.e_machine = EM_TILEGX ∨ e.e_machine = EM_LOONGARCH then 0x10000
  else if e.e_machine = EM_SPARC ∨ e.e_machine = EM_SPARCV9 then 0x2000
  else 0x1000

/-! ## Opening: the ElfFile constructor (byte-level, Elf64 layout) -/

/-- The endianness flag read from e_ident[EI_DATA]. -/
def ehdrLE (b : List Nat) : Bool := readByte b 5 == 1

def ehdrType (b : List Nat) : Nat := readInt (ehdrLE b) b 16 2
def ehdrMachine (b : List Nat) : Nat := readInt (ehdrLE b) b 18 2
def ehdrPhoff (b : List Nat) : Nat := readInt (ehdrLE b) b 32 8
def ehdrShoff (b : List Nat) : Nat := readInt (ehdrLE b) b 40 8
def ehdrPhentsize (b : List Nat) : Nat := readInt (ehdrLE b) b 54 2
def ehdrPhnum (b : List Nat) : Nat := readInt (ehdrLE b) b 56 2
def ehdrShentsize (b : List Nat) : Nat := readInt (ehdrLE b) b 58 2
def ehdrShnum (b : List Nat) : Nat := readInt (ehdrLE b) b 60 2
def ehdrShstrndx (b : List Nat) : Nat := readInt (ehdrLE b) b 62 2

def elfMagicOk (b : List Nat) : Bool :=
  readByte b 0 == 0x7f && readByte b 1 == 0x45 && readByte b 2 == 0x4c && readByte b 3 == 0x46

/-- Parse one Elf64_Phdr at a byte offset. -/
def parsePhdr (le : Bool) (b : List Nat) (off : Nat) : Phdr :=
  { p_type := readInt le b off 4
    p_flags := readInt le b (off + 4) 4
    p_offset := readInt le b (off + 8) 8
    p_vaddr := readInt le b (off + 16) 8
    p_paddr := readInt le b (off + 24) 8
    p_filesz := readInt le b (off + 32) 8
    p_memsz := readInt le b (off + 40) 8
    p_align := readInt le b (off + 48) 8 }

/-- Parse one Elf64_Shdr at a byte offset. -/
def parseShdr (le : Bool) (b : List Nat) (off : Nat) : Shdr :=
  { sh_name := readInt le b off 4
    sh_type := readInt le b (off + 4) 4
    sh_flags := readInt le b (off + 8) 8
    sh_addr := readInt le b (off + 16) 8
    sh_offset := readInt le b (off + 24) 8
    sh_size := readInt le b (off + 32) 8
    sh_link := readInt le b (off + 40) 4
    sh_info := readInt le b (off + 44) 4
    sh_addralign := readInt le b (off + 48) 8
    sh_entsize := readInt le b (off + 56) 8 }

/-- Modelled from the spec: checkPointer is declared in headers that are
not part of src/; per its uses it verifies that a data region lies within
the file contents.  Here: off + size must not pass the end of the buffer. -/
def checkRegion (b : List Nat) (off size : Nat) : Except Err Unit :=
  if off + size ≤ b.length then .ok () else .error "data region extends past file end"

/-- The program-header copy loop of the constructor. -/
def parsePhdrs (le : Bool) (b : List Nat) (phoff n : Nat) : Except Err (List Phdr) :=
  (List.range n).mapM (fun i => do
    checkRegion b (phoff + i * phdrSize) phdrSize
    return parsePhdr le b (phoff + i * phdrSize))

/-- The section-header copy loop of the constructor (stride is
sizeof(Elf64_Shdr), independently of e_shentsize, as in the source). -/
def parseShdrs (le : Bool) (b : List Nat) (shoff n : Nat) : Except Err (List Shdr) :=
  (List.range n).mapM (fun i => do
    checkRegion b (shoff + i * shdrSize) shdrSize
    return parseShdr le b (shoff + i * shdrSize))

/-- The old-index-to-name map captured at open: index 0 stays empty, every
other index records the section name. -/
def buildSectionsByOldIndex (names : List Char) (shdrs : List Shdr) :
    Except Err (List (List Char)) :=
  (List.range shdrs.length).mapM (fun i =>
    if i = 0 then pure []
    else do
      let s ← elfAt shdrs i
      sectionNameOf names s)

/-- ElfFile::ElfFile(FileContents): parse and validate a byte buffer.
This is the 64-bit instantiation; every check follows the constructor,
in order.  The overflow checks on the header tables use checked
(non-wrapping) 64-bit arithmetic, as the source does via
__builtin_mul_overflow / __builtin_add_overflow. -/
def openElf (b : List Nat) : Except Err ElfFile := do
  if b.length < ehdrSize then .error "missing ELF header" else
  if ¬ elfMagicOk b then .error "not an ELF executable" else
  if ehdrType b ≠ ET_EXEC ∧ ehdrType b ≠ ET_DYN then .error "wrong ELF type" else
  match checkedMul (ehdrPhnum b) (ehdrPhentsize b) with
  | none => .error "program header table out of bounds"
  | some phSize =>
  match checkedAdd (ehdrPhoff b) phSize with
  | none => .error "program header table out of bounds"
  | some phEnd =>
  if phEnd > b.length then .error "program header table out of bounds" else
  if ehdrShnum b = 0 then
    .error "no section headers. The input file is probably a statically linked, self-decompressing binary"
  else
  match checkedMul (ehdrShnum b) (ehdrShentsize b) with
  | none => .error "section header table out of bounds"
  | some shSize =>
  match checkedAdd (ehdrShoff b) shSize with
  | none => .error "section header table out of bounds"
  | some shEnd =>
  if shEnd > b.length then .error "section header table out of bounds" else
  if ehdrPhentsize b ≠ phdrSize then .error "program headers have wrong size" else do
  let phdrs ← parsePhdrs (ehdrLE b) b (ehdrPhoff b) (ehdrPhnum b)
  let shdrs ← parseShdrs (ehdrLE b) b (ehdrShoff b) (ehdrShnum b)
  if ehdrShstrndx b ≥ shdrs.length then .error "string table index out of bounds" else do
  let stShdr ← elfAt shdrs (ehdrShstrndx b)
  checkRegion b stShdr.sh_offset stShdr.sh_size
  if stShdr.sh_size = 0 then .error "string table size is zero" else
  if readByte b (stShdr.sh_offset + stShdr.sh_size - 1) ≠ 0 then
    .error "string table is not zero terminated"
  else do
  let oldIdx ← buildSectionsByOldIndex
    ((extractBytes b stShdr.sh_offset stShdr.sh_size).map Char.ofNat) shdrs
  return { fileContents := b
           littleEndian := ehdrLE b
           e_type := ehdrType b
           e_machine := ehdrMachine b
           e_phoff := ehdrPhoff b
           e_shoff := ehdrShoff b
           e_phnum := ehdrPhnum b
           e_phentsize := ehdrPhentsize b
           e_shnum := ehdrShnum b
           e_shentsize := ehdrShentsize b
           e_shstrndx := ehdrShstrndx b
           phdrs := phdrs
           shdrs := shdrs
           sectionNames := (extractBytes b stShdr.sh_offset stShdr.sh_size).map Char.ofNat
           sectionsByOldIndex := oldIdx
           replacedSections := []
           clobberOldSections := false }

/-! ## Note-segment normalization (ElfFile::normalizeNoteSegments) -/

def noteNonContigMsg : Err := "cannot normalize PT_NOTE segment: non-contiguous SHT_NOTE sections"
def notePartialMsg : Err := "cannot normalize PT_NOTE segment: partially mapped SHT_NOTE section"

/-- The inner scan of the normalization loop: the first SHT_NOTE section
whose sh_offset equals the current offset rounded up to that section's own
sh_addralign; on a match the loop records the rounded offset and the
section size. -/
def findNoteSection (shdrs : List Shdr) (curr : Nat) : Option (Nat × Nat) :=
  match shdrs with
  | [] => none
  | s :: rest =>
    if s.sh_type = SHT_NOTE ∧ s.sh_offset = roundUp curr s.sh_addralign then
      some (roundUp curr s.sh_addralign, s.sh_size)
    else findNoteSection rest curr

/-- The while loop of normalizeNoteSegments over one PT_NOTE segment:
walk from the segment start, deriving one program header per matched
section; a header derived at exactly the segment start replaces the
original slot, every other derived header is appended. -/
def normSegGo (shdrs : List Shdr) (parent : Phdr) (startOff endOff : Nat) :
    Phdr → List Phdr → Nat → Nat → Except Err (Phdr × List Phdr)
  | _, _, _, 0 => .error "PT_NOTE normalization did not terminate"
  | slot, acc, curr, fuel + 1 =>
    if curr < endOff then
      match findNoteSection shdrs curr with
      | none => .error noteNonContigMsg
      | some (c, sz) =>
        if sz = 0 then .error noteNonContigMsg
        else if c + sz > endOff then .error notePartialMsg
        else
          let np : Phdr :=
            { parent with
              p_offset := c
              p_vaddr := parent.p_vaddr + (c - startOff)
              p_paddr := parent.p_paddr + (c - startOff)
              p_filesz := sz
              p_memsz := sz }
          if c = startOff then normSegGo shdrs parent startOff endOff np acc (c + sz) fuel
          else normSegGo shdrs parent startOff endOff slot (acc ++ [np]) (c + sz) fuel
    else .ok (slot, acc)

/-- The emptiness test: some section starts within the segment range
(legacy empty PT_NOTE segments are skipped). -/
def segmentHasSection (shdrs : List Shdr) (startOff endOff : Nat) : Bool :=
  shdrs.any (fun s => startOff ≤ s.sh_offset && s.sh_offset < endOff)

/-- Normalization of a single PT_NOTE segment. -/
def normalizeSegment (shdrs : List Shdr) (phdr : Phdr) : Except Err (Phdr × List Phdr) :=
  let startOff := phdr.p_offset
  let endOff := phdr.p_offset + phdr.p_filesz
  if ¬ segmentHasSection shdrs startOff endOff then .ok (phdr, [])
  else normSegGo shdrs phdr startOff endOff phdr [] startOff (phdr.p_filesz + 1)

/-- The loop over all program headers, accumulating the appended headers. -/
def normAllGo (shdrs : List Shdr) : List Phdr → Except Err (List Phdr × List Phdr)
  | [] => .ok ([], [])
  | p :: rest =>
    if p.p_type ≠ PT_NOTE then do
      let (ps, news) ← normAllGo shdrs rest
      return (p :: ps, news)
    else do
      let (slot, emitted) ← normalizeSegment shdrs p
      let (ps, news) ← normAllGo shdrs rest
      return (slot :: ps, emitted ++ news)

/-- std::any_of over the pending edits: is any edited section SHT_NOTE? -/
def hasNoteEditGo (e : ElfFile) : List (List Char × List Nat) → Except Err Bool
  | [] => .ok false
  | (k, _) :: rest => do
    let s ← findSectionHeader e k
    if s.sh_type = SHT_NOTE then .ok true else hasNoteEditGo e rest

def hasNoteEdit (e : ElfFile) : Except Err Bool := hasNoteEditGo e e.replacedSections

/-- ElfFile::normalizeNoteSegments. -/
def normalizeNoteSegments (e : ElfFile) : Except Err ElfFile :=
  (hasNoteEdit e) >>= fun rn =>
  if rn = false then .ok e
  else
    (normAllGo e.shdrs e.phdrs) >>= fun pr =>
    .ok { e with phdrs := pr.1 ++ pr.2, e_phnum := (pr.1 ++ pr.2).length % 65536 }

/-! ## Sorting the header tables -/

/-- Name-keyed association map (std::map with std::string keys), lookup. -/
def alLookup {β : Type} (m : List (List Char × β)) (k : List Char) : Option β :=
  match m with
  | [] => none
  | (k2, v) :: rest => if k2 = k then some v else alLookup rest k

/-- Name-keyed association map, insert-or-assign. -/
def alInsert {β : Type} (m : List (List Char × β)) (k : List Char) (v : β) :
    List (List Char × β) :=
  match m with
  | [] => [(k, v)]
  | (k2, v2) :: rest => if k2 = k then (k2, v) :: rest else (k2, v2) :: alInsert rest k v

/-- Stable insertion into a sorted list: the new element goes after every
already placed element that compares less-or-equal. -/
def stableInsert {α : Type} (le : α → α → Bool) (x : α) : List α → List α
  | [] => [x]
  | y :: ys => if le y x then y :: stableInsert le x ys else x :: y :: ys

/-- A structurally recursive stable sort (insertion sort), used to model
std::stable_sort. -/
def stableSortBy {α : Type} (le : α → α → Bool) : List α → List α
  | [] => []
  | x :: xs => stableInsert le x (stableSortBy le xs)

/-- Modelled from the spec: the CompPhdr comparator is declared in headers
not under src/; per spec section 4.7 the PHT is stable-sorted by p_offset. -/
def sortPhdrsList (phdrs : List Phdr) : List Phdr :=
  stableSortBy (fun a b => decide (a.p_offset ≤ b.p_offset)) phdrs

/-- The sh_link capture loop of sortShdrs: section name to linked section
name, for sections with a nonzero sh_link. -/
def sortShdrsLinkageGo (e : ElfFile) :
    Nat → Nat → List (List Char × List Char) → Except Err (List (List Char × List Char))
  | _, 0, m => .ok m
  | i, r + 1, m => do
    let s ← elfAt e.shdrs i
    if s.sh_link ≠ 0 then do
      let t ← elfAt e.shdrs s.sh_link
      let n1 ← getSectionName e s
      let n2 ← getSectionName e t
      sortShdrsLinkageGo e (i + 1) r (alInsert m n1 n2)
    else sortShdrsLinkageGo e (i + 1) r m

/-- The sh_info capture loop (only for SHT_REL / SHT_RELA sections). -/
def sortShdrsInfoGo (e : ElfFile) :
    Nat → Nat → List (List Char × List Char) → Except Err (List (List Char × List Char))
  | _, 0, m => .ok m
  | i, r + 1, m => do
    let s ← elfAt e.shdrs i
    if s.sh_info ≠ 0 ∧ (s.sh_type = SHT_REL ∨ s.sh_type = SHT_RELA) then do
      let t ← elfAt e.shdrs s.sh_info
      let n1 ← getSectionName e s
      let n2 ← getSectionName e t
      sortShdrsInfoGo e (i + 1) r (alInsert m n1 n2)
    else sortShdrsInfoGo e (i + 1) r m

/-- The sh_link restore loop: re-resolve the captured name through the
sorted table (std::map operator[] default-constructs a missing key, hence
the empty-name fallback). -/
def restoreLinkGo (e0 : ElfFile) (linkage : List (List Char × List Char)) :
    List Shdr → Nat → Nat → Except Err (List Shdr)
  | shdrs, _, 0 => .ok shdrs
  | shdrs, i, r + 1 => do
    let s ← elfAt shdrs i
    if s.sh_link ≠ 0 then do
      let n ← sectionNameOf e0.sectionNames s
      let tgt := (alLookup linkage n).getD []
      let idx ← getSectionIndex { e0 with shdrs := shdrs } tgt
      restoreLinkGo e0 linkage (shdrs.set i { s with sh_link := idx }) (i + 1) r
    else restoreLinkGo e0 linkage shdrs (i + 1) r

/-- The sh_info restore loop (std::map::at throws on a missing key). -/
def restoreInfoGo (e0 : ElfFile) (infoMap : List (List Char × List Char)) :
    List Shdr → Nat → Nat → Except Err (List Shdr)
  | shdrs, _, 0 => .ok shdrs
  | shdrs, i, r + 1 => do
    let s ← elfAt shdrs i
    if s.sh_info ≠ 0 ∧ (s.sh_type = SHT_REL ∨ s.sh_type = SHT_RELA) then do
      let n ← sectionNameOf e0.sectionNames s
      match alLookup infoMap n with
      | none => .error "map key not found"
      | some tgt => do
        let idx ← getSectionIndex { e0 with shdrs := shdrs } tgt
        restoreInfoGo e0 infoMap (shdrs.set i { s with sh_info := idx }) (i + 1) r
    else restoreInfoGo e0 infoMap shdrs (i + 1) r

/-- The e_shstrndx restore loop: match the saved header by sh_offset; the
last matching index wins. -/
def restoreShstrndxGo (shdrs : List Shdr) (savedOff : Nat) :
    Nat → Nat → Nat → Except Err Nat
  | _, 0, cur => .ok cur
  | i, r + 1, cur => do
    let s ← elfAt shdrs i
    restoreShstrndxGo shdrs savedOff (i + 1) r (if s.sh_offset = savedOff then i else cur)

/-- ElfFile::sortShdrs: capture sh_link / sh_info cross-references by
name, stable-sort (per spec section 4.7, by sh_offset, null section
fixed), restore the references and re-derive e_shstrndx.  Returns the new
section-header table and the new e_shstrndx. -/
def sortShdrs (e : ElfFile) : Except Err (List Shdr × Nat) := do
  let linkage ← sortShdrsLinkageGo e 1 (e.e_shnum - 1) []
  let infoMap ← sortShdrsInfoGo e 1 (e.e_shnum - 1) []
  let saved ← elfAt e.shdrs e.e_shstrndx
  let sorted := match e.shdrs with
    | [] => []
    | h :: t => h :: stableSortBy (fun a b => decide (a.sh_offset ≤ b.sh_offset)) t
  let shdrs1 ← restoreLinkGo e linkage sorted 1 (e.e_shnum - 1)
  let shdrs2 ← restoreInfoGo e infoMap shdrs1 1 (e.e_shnum - 1)
  let ndx ← restoreShstrndxGo shdrs2 saved.sh_offset 1 (e.e_shnum - 1) e.e_shstrndx
  return (shdrs2, ndx)

/-! ## Writing out the replaced sections (ElfFile::writeReplacedSections) -/

def mipsAbiflagsName : List Char := ".MIPS.abiflags".toList
def noteGnuPropertyName : List Char := ".note.gnu.property".toList

/-- Sync a program header with a section header (offset, vaddr = paddr =
addr, filesz = memsz = size). -/
def syncPhdrToShdr (s : Shdr) (p : Phdr) : Phdr :=
  { p with p_offset := s.sh_offset, p_vaddr := s.sh_addr, p_paddr := s.sh_addr,
           p_filesz := s.sh_size, p_memsz := s.sh_size }

/-- The clobber pass: overwrite old section contents with Z bytes
(only when clobberOldSections is set). -/
def wrsClobberGo (e : ElfFile) :
    List Nat → List (List Char × List Nat) → Except Err (List Nat)
  | bytes, [] => .ok bytes
  | bytes, (k, _) :: rest => do
    let s ← findSectionHeader e k
    if s.sh_type ≠ SHT_NOBITS then
      wrsClobberGo e (storeBytes bytes s.sh_offset (List.replicate s.sh_size 90)) rest
    else wrsClobberGo e bytes rest

/-- The PT_NOTE sync loop of writeReplacedSections: for every not yet
noted PT_NOTE header overlapping the original section range, require an
exact range match, then sync to the updated section. -/
def wrsNoteSyncGo (orig upd : Shdr) :
    List Phdr → Nat → List Nat → Except Err (List Phdr × List Nat)
  | [], _, noted => .ok ([], noted)
  | p :: rest, j, noted =>
    if p.p_type = PT_NOTE ∧ ¬ noted.contains j then
      let pStart := p.p_offset
      let pEnd := p.p_offset + p.p_filesz
      let sStart := orig.sh_offset
      let sEnd := orig.sh_offset + orig.sh_size
      if ¬ (sStart ≥ pStart ∧ sStart < pEnd) ∧ ¬ (sEnd > pStart ∧ sEnd ≤ pEnd) then
        (wrsNoteSyncGo orig upd rest (j + 1) noted) >>= fun pr =>
        .ok (p :: pr.1, pr.2)
      else if pStart ≠ sStart ∨ pEnd ≠ sEnd then
        .error "unsupported overlap of SHT_NOTE and PT_NOTE"
      else
        (wrsNoteSyncGo orig upd rest (j + 1) (noted ++ [j])) >>= fun pr =>
        .ok (syncPhdrToShdr upd p :: pr.1, pr.2)
    else
      (wrsNoteSyncGo orig upd rest (j + 1) noted) >>= fun pr =>
      .ok (p :: pr.1, pr.2)

/-- The main loop of writeReplacedSections over the (sorted) section
headers: copy each edited section to the write cursor, update its header,
and sync the PT_INTERP / PT_DYNAMIC / PT_NOTE / PT_MIPS_ABIFLAGS /
PT_GNU_PROPERTY segments. -/
def wrsGo (names : List Char) (reps : List (List Char × List Nat))
    (startAddr startOffset : Nat) :
    List Nat → List Phdr → List Nat → Nat → List Shdr → List Shdr →
    Except Err (List Nat × List Phdr × List Shdr × Nat)
  | bytes, phdrs, _, curOff, done, [] => .ok (bytes, phdrs, done, curOff)
  | bytes, phdrs, noted, curOff, done, shdr :: rest =>
    (sectionNameOf names shdr) >>= fun name =>
    match secLookup reps name with
    | none => wrsGo names reps startAddr startOffset bytes phdrs noted curOff (done ++ [shdr]) rest
    | some data =>
      let shdr1 : Shdr :=
        { shdr with
          sh_offset := curOff
          sh_addr := startAddr + (curOff - startOffset)
          sh_size := data.length
          sh_addralign := sectionAlignment }
      let phdrs1 := if name = interpName then
          phdrs.map (fun p => if p.p_type = PT_INTERP then syncPhdrToShdr shdr1 p else p)
        else if name = dynamicName then
          phdrs.map (fun p => if p.p_type = PT_DYNAMIC then syncPhdrToShdr shdr1 p else p)
        else phdrs
      let shdr2 := if shdr1.sh_type = SHT_NOTE ∧ shdr.sh_addralign < sectionAlignment then
          { shdr1 with sh_addralign := shdr.sh_addralign } else shdr1
      (if shdr1.sh_type = SHT_NOTE then wrsNoteSyncGo shdr shdr2 phdrs1 0 noted
       else pure (phdrs1, noted)) >>= fun r =>
      let phdrs3 := if name = mipsAbiflagsName then
          r.1.map (fun p => if p.p_type = PT_MIPS_ABIFLAGS then syncPhdrToShdr shdr2 p else p)
        else r.1
      let phdrs4 := if name = noteGnuPropertyName then
          phdrs3.map (fun p => if p.p_type = PT_GNU_PROPERTY then syncPhdrToShdr shdr2 p else p)
        else phdrs3
      wrsGo names reps startAddr startOffset (storeBytes bytes curOff data) phdrs4 r.2
        (curOff + roundUp data.length sectionAlignment) (done ++ [shdr2]) rest

/-- ElfFile::writeReplacedSections; returns the updated state (with the
pending-edit map cleared) and the final write cursor. -/
def writeReplacedSections (e : ElfFile) (curOff startAddr startOffset : Nat) :
    Except Err (ElfFile × Nat) :=
  (if e.clobberOldSections then wrsClobberGo e e.fileContents e.replacedSections
   else pure e.fileContents) >>= fun bytes0 =>
  (wrsGo e.sectionNames e.replacedSections startAddr startOffset
     bytes0 e.phdrs [] curOff [] e.shdrs) >>= fun r =>
  .ok ({ e with
         fileContents := r.1
         phdrs := r.2.1
         shdrs := r.2.2.1
         replacedSections := [] }, r.2.2.2)

/-! ## Rewriting the headers (ElfFile::rewriteHeaders) -/

def encodePhdr (p : Phdr) : List Nat :=
  encodeInt p.p_type 4 ++ encodeInt p.p_flags 4 ++ encodeInt p.p_offset 8 ++
  encodeInt p.p_vaddr 8 ++ encodeInt p.p_paddr 8 ++ encodeInt p.p_filesz 8 ++
  encodeInt p.p_memsz 8 ++ encodeInt p.p_align 8

def encodeShdr (s : Shdr) : List Nat :=
  encodeInt s.sh_name 4 ++ encodeInt s.sh_type 4 ++ encodeInt s.sh_flags 8 ++
  encodeInt s.sh_addr 8 ++ encodeInt s.sh_offset 8 ++ encodeInt s.sh_size 8 ++
  encodeInt s.sh_link 4 ++ encodeInt s.sh_info 4 ++ encodeInt s.sh_addralign 8 ++
  encodeInt s.sh_entsize 8

/-- Update the PT_PHDR entry, if any (only the first one, as the source
breaks out of the loop). -/
def updateFirstPtPhdr (tblSize phoff addr : Nat) : List Phdr → List Phdr
  | [] => []
  | p :: rest =>
    if p.p_type = PT_PHDR then
      { p with p_offset := phoff, p_vaddr := addr, p_paddr := addr,
               p_filesz := tblSize, p_memsz := tblSize } :: rest
    else p :: updateFirstPtPhdr tblSize phoff addr rest

/-- Serialize the PHT into the buffer at e_phoff. -/
def writePhdrTable (bytes : List Nat) (off : Nat) (phdrs : List Phdr) : List Nat :=
  phdrs.enum.foldl (fun b ip => storeBytes b (off + ip.1 * phdrSize) (encodePhdr ip.2)) bytes

/-- Serialize the SHT into the buffer at e_shoff (from index 1, as the
source loop starts at 1). -/
def writeShdrTable (bytes : List Nat) (off : Nat) (shdrs : List Shdr) : List Nat :=
  (shdrs.enum.drop 1).foldl (fun b is => storeBytes b (off + is.1 * shdrSize) (encodeShdr is.2)) bytes

def hashName : List Char := ".hash".toList
def gnuHashName : List Char := ".gnu.hash".toList
def mipsXhashName : List Char := ".MIPS.xhash".toList
def relPltName : List Char := ".rel.plt".toList
def relaPltName : List Char := ".rela.plt".toList
def relaIa64PltoffName : List Char := ".rela.IA_64.pltoff".toList
def relDynName : List Char := ".rel.dyn".toList
def relGotName : List Char := ".rel.got".toList
def relaDynName : List Char := ".rela.dyn".toList
def gnuVersionRName : List Char := ".gnu.version_r".toList
def gnuVersionName : List Char := ".gnu.version".toList
def rldMapName : List Char := ".rld_map".toList

/-- The per-tag update of the .dynamic rewrite: the new value for a tag,
or none when the tag is left unchanged. -/
def dynTagValue (e : ElfFile) (tag entryIdx dynAddr : Nat) : Except Err (Option Nat) :=
  if tag = DT_STRTAB then do
    let s ← findSectionHeader e dynstrName
    return some s.sh_addr
  else if tag = DT_STRSZ then do
    let s ← findSectionHeader e dynstrName
    return some s.sh_size
  else if tag = DT_SYMTAB then do
    let s ← findSectionHeader e dynsymName
    return some s.sh_addr
  else if tag = DT_HASH then do
    let s ← findSectionHeader e hashName
    return some s.sh_addr
  else if tag = DT_GNU_HASH then do
    let s? ← tryFindSectionHeader e gnuHashName
    return s?.map (fun s => s.sh_addr)
  else if tag = DT_MIPS_XHASH then do
    let s ← findSectionHeader e mipsXhashName
    return some s.sh_addr
  else if tag = DT_JMPREL then do
    match ← tryFindSectionHeader e relPltName with
    | some s => return some s.sh_addr
    | none =>
      match ← tryFindSectionHeader e relaPltName with
      | some s => return some s.sh_addr
      | none =>
        match ← tryFindSectionHeader e relaIa64PltoffName with
        | some s => return some s.sh_addr
        | none => .error "cannot find section corresponding to DT_JMPREL"
  else if tag = DT_REL then do
    match ← tryFindSectionHeader e relDynName with
    | some s => return some s.sh_addr
    | none => do
      let s? ← tryFindSectionHeader e relGotName
      return s?.map (fun s => s.sh_addr)
  else if tag = DT_RELA then do
    let s? ← tryFindSectionHeader e relaDynName
    return s?.map (fun s => s.sh_addr)
  else if tag = DT_VERNEED then do
    let s ← findSectionHeader e gnuVersionRName
    return some s.sh_addr
  else if tag = DT_VERSYM then do
    let s ← findSectionHeader e gnuVersionName
    return some s.sh_addr
  else if tag = DT_MIPS_RLD_MAP_REL then do
    match ← tryFindSectionHeader e rldMapName with
    | some s =>
      -- rld_map address minus the tag offset minus the .dynamic address,
      -- in wrapping 64-bit arithmetic
      return some ((s.sh_addr + 2 ^ 65 - entryIdx * dynSize - dynAddr) % 2 ^ 64)
    | none => return some 0
  else return none

/-- The walk over the .dynamic tag table until DT_NULL. -/
def dynGo (e : ElfFile) (tableOff dynAddr : Nat) :
    List Nat → Nat → Nat → Except Err (List Nat)
  | _, _, 0 => .error "dynamic section walk did not terminate"
  | bytes, idx, fuel + 1 =>
    if readInt e.littleEndian bytes (tableOff + idx * dynSize) 8 = DT_NULL then .ok bytes
    else
      (dynTagValue e (readInt e.littleEndian bytes (tableOff + idx * dynSize) 8)
        idx dynAddr) >>= fun v? =>
      dynGo e tableOff dynAddr
        (match v? with
         | some v => storeBytes bytes (tableOff + idx * dynSize + 8) (encodeInt v 8)
         | none => bytes) (idx + 1) fuel

/-- The .dynamic update pass of rewriteHeaders (skipped when the section
is absent). -/
def rewriteDynamicSection (e : ElfFile) (bytes : List Nat) : Except Err (List Nat) := do
  match ← tryFindSectionHeader e dynamicName with
  | none => return bytes
  | some sd => dynGo e sd.sh_offset sd.sh_addr bytes 0 (bytes.length / dynSize + 2)

def decodeSym (le : Bool) (bytes : List Nat) (off : Nat) : Sym :=
  { st_name := readInt le bytes off 4
    st_info := readInt le bytes (off + 4) 1
    st_other := readInt le bytes (off + 5) 1
    st_shndx := readInt le bytes (off + 6) 2
    st_value := readInt le bytes (off + 8) 8
    st_size := readInt le bytes (off + 16) 8 }

def encodeSym (s : Sym) : List Nat :=
  encodeInt s.st_name 4 ++ encodeInt s.st_info 1 ++ encodeInt s.st_other 1 ++
  encodeInt s.st_shndx 2 ++ encodeInt s.st_value 8 ++ encodeInt s.st_size 8

/-- The per-entry body of the symbol-table rewrite: translate an in-range
old st_shndx through the old-index-to-name map to the current index of the
section with that name; an out-of-range old index emits a warning (the
returned flag) and leaves the entry untouched; STT_SECTION symbols have
st_value set to the new sh_addr of the referenced section. -/
def rewriteSymEntry (e : ElfFile) (sym : Sym) : Except Err (Sym × Bool) :=
  if sym.st_shndx ≠ 0 ∧ sym.st_shndx < SHN_LORESERVE then
    if sym.st_shndx ≥ e.sectionsByOldIndex.length then .ok (sym, true)
    else do
      let secName ← elfAt e.sectionsByOldIndex sym.st_shndx
      if secName = [] then .error "assertion failed: empty section name in old-index map"
      else do
        let newIndex ← getSectionIndex e secName
        let sym1 := { sym with st_shndx := newIndex }
        if sym.st_info % 16 = STT_SECTION then do
          let s ← elfAt e.shdrs newIndex
          return ({ sym1 with st_value := s.sh_addr }, false)
        else return (sym1, false)
  else .ok (sym, false)

def writeSyms (bytes : List Nat) (off : Nat) (syms : List Sym) : List Nat :=
  syms.enum.foldl (fun b is => storeBytes b (off + is.1 * symSize) (encodeSym is.2)) bytes

/-- The entry loop over one symbol table: rewrite every entry in order
(the warning flags are consumed by stderr in the source and dropped
here). -/
def rewriteSymsGo (e : ElfFile) : List Sym → Except Err (List Sym)
  | [] => .ok []
  | s :: rest =>
    (rewriteSymEntry e s) >>= fun pr =>
    (rewriteSymsGo e rest) >>= fun rs =>
    .ok (pr.1 :: rs)

/-- The symbol-table pass of rewriteHeaders: for every SHT_SYMTAB or
SHT_DYNSYM section rewrite each entry.  The source interleaves the decode
and encode of each 24-byte entry; since an entry rewrite reads only the
header tables and writes only its own bytes, decoding the whole table,
mapping the per-entry body and re-encoding is equivalent. -/
def rewriteSymTablesGo (e : ElfFile) :
    List Nat → Nat → Nat → Except Err (List Nat)
  | bytes, _, 0 => .ok bytes
  | bytes, i, r + 1 => do
    let shdr ← elfAt e.shdrs i
    if shdr.sh_type ≠ SHT_SYMTAB ∧ shdr.sh_type ≠ SHT_DYNSYM then
      rewriteSymTablesGo e bytes (i + 1) r
    else
      (rewriteSymsGo e ((List.range (shdr.sh_size / symSize)).map
        (fun k => decodeSym e.littleEndian bytes (shdr.sh_offset + k * symSize)))) >>= fun res =>
      rewriteSymTablesGo e (writeSyms bytes shdr.sh_offset res) (i + 1) r

/-- ElfFile::rewriteHeaders(phdrAddress): update PT_PHDR, sort and
serialize both header tables, update the .dynamic tags and rewrite the
symbol tables. -/
def rewriteHeaders (e : ElfFile) (phdrAddress : Nat) : Except Err ElfFile :=
  -- the source asserts e_shnum == shdrs.size() between the two table
  -- serializations; the check is hoisted to the entry, which is
  -- unobservable since a failed assertion aborts without a result and
  -- the serializations do not change either quantity
  if e.e_shnum ≠ e.shdrs.length then .error "assertion failed: e_shnum equals shdrs size"
  else
    let phdrs2 := sortPhdrsList (updateFirstPtPhdr (e.phdrs.length * phdrSize) e.e_phoff phdrAddress e.phdrs)
    let e1 := { e with phdrs := phdrs2, fileContents := writePhdrTable e.fileContents e.e_phoff phdrs2 }
    (sortShdrs e1) >>= fun sr =>
    let e2 := { e1 with shdrs := sr.1, e_shstrndx := sr.2 }
    let e3 := { e2 with fileContents := writeShdrTable e2.fileContents e2.e_shoff e2.shdrs }
    (rewriteDynamicSection e3 e3.fileContents) >>= fun bytes3 =>
    let e4 := { e3 with fileContents := bytes3 }
    (rewriteSymTablesGo e4 e4.fileContents 1 (e4.e_shnum - 1)) >>= fun bytes4 =>
    .ok { e4 with fileContents := bytes4 }

/-! ## The shift primitive (ElfFile::shiftFile) -/

/-- Wrapping 64-bit subtraction (the C++ arithmetic is on unsigned
64-bit fields). -/
def sub64 (a b : Nat) : Nat := (a + 2 ^ 64 - b % 2 ^ 64) % 2 ^ 64

/-- The section-offset adjustment loop of shiftFile (indices from 1). -/
def shdrsShiftOffsetsGo (startOffset shift : Nat) :
    List Shdr → Nat → Nat → Except Err (List Shdr)
  | shdrs, _, 0 => .ok shdrs
  | shdrs, i, r + 1 => do
    let s ← elfAt shdrs i
    if s.sh_offset ≥ startOffset then
      shdrsShiftOffsetsGo startOffset shift
        (shdrs.set i { s with sh_offset := s.sh_offset + shift }) (i + 1) r
    else shdrsShiftOffsetsGo startOffset shift shdrs (i + 1) r

/-- The program-header adjustment loop of shiftFile: split the unique
straddling PT_LOAD, advance segments at or after the start offset (fixing
the alignment congruence by lowering p_align to the page size when
needed), and lower the virtual addresses of segments before it. -/
def shiftPhdrsGo (pageSize startOffset shift : Nat) :
    List Phdr → Nat → Nat → Option (Nat × Nat) →
    Except Err (List Phdr × Option (Nat × Nat))
  | phdrs, _, 0, split => .ok (phdrs, split)
  | phdrs, i, r + 1, split => do
    let p ← elfAt phdrs i
    let pStart := p.p_offset
    if pStart ≤ startOffset ∧ pStart + p.p_filesz > startOffset ∧ p.p_type = PT_LOAD then
      if split.isSome then .error "assertion failed: only one program header is split"
      else
        let splitShift := startOffset - pStart
        let p1 : Phdr :=
          { p with
            p_offset := startOffset
            p_memsz := p.p_memsz - splitShift
            p_filesz := p.p_filesz - splitShift
            p_paddr := p.p_paddr + splitShift
            p_vaddr := p.p_vaddr + splitShift }
        let p2 := { p1 with p_offset := startOffset + shift }
        let p3 := if p2.p_align ≠ 0 ∧ sub64 p2.p_vaddr p2.p_offset % p2.p_align ≠ 0 then
            { p2 with p_align := pageSize } else p2
        shiftPhdrsGo pageSize startOffset shift (phdrs.set i p3) (i + 1) r (some (i, splitShift))
    else if pStart ≥ startOffset then
      let p2 := { p with p_offset := pStart + shift }
      let p3 := if p2.p_align ≠ 0 ∧ sub64 p2.p_vaddr p2.p_offset % p2.p_align ≠ 0 then
          { p2 with p_align := pageSize } else p2
      shiftPhdrsGo pageSize startOffset shift (phdrs.set i p3) (i + 1) r split
    else
      let p2 := { p with p_paddr := if p.p_paddr ≥ shift then p.p_paddr - shift else p.p_paddr }
      let p3 := { p2 with p_vaddr := if p.p_vaddr ≥ shift then p.p_vaddr - shift else p.p_vaddr }
      shiftPhdrsGo pageSize startOffset shift (phdrs.set i p3) (i + 1) r split

/-- ElfFile::shiftFile(extraPages, startOffset, extraBytes). -/
def shiftFile (e : ElfFile) (extraPages startOffset extraBytes : Nat) : Except Err ElfFile :=
  if ¬ startOffset ≥ ehdrSize then .error "assertion failed: startOffset at least ehdr size"
  else if ¬ e.fileContents.length > startOffset then
    .error "assertion failed: old size greater than startOffset"
  else
    let shift := extraPages * getPageSize e
    (shdrsShiftOffsetsGo startOffset shift e.shdrs 1 (e.e_shnum - 1)) >>= fun shdrs1 =>
    (shiftPhdrsGo (getPageSize e) startOffset shift e.phdrs 0 e.e_phnum none) >>= fun r =>
    (match r.2 with
     | none => .error "assertion failed: a program header is split"
     | some si => .ok si) >>= fun si =>
    (elfAt r.1 si.1) >>= fun sp =>
    if (e.e_phnum + 1) % 65536 = 0 then .error "vector index out of range"
    else
      .ok { e with
            fileContents := e.fileContents.take startOffset ++ List.replicate shift 0 ++
                            e.fileContents.drop startOffset
            e_phoff := ehdrSize
            e_shoff := if e.e_shoff ≥ startOffset then e.e_shoff + shift else e.e_shoff
            e_phnum := (e.e_phnum + 1) % 65536
            shdrs := shdrs1
            phdrs := (r.1.take (e.e_phnum + 1) ++
                      List.replicate (e.e_phnum + 1 - r.1.length) default).set
                       ((e.e_phnum + 1) % 65536 - 1)
                       { p_type := PT_LOAD
                         p_flags := PF_R + PF_W
                         p_offset := sp.p_offset - si.2 - shift
                         p_vaddr := sp.p_vaddr - si.2 - shift
                         p_paddr := sp.p_paddr - si.2 - shift
                         p_filesz := si.2 + extraBytes
                         p_memsz := si.2 + extraBytes
                         p_align := getPageSize e } }

/-! ## The executable strategy (ElfFile::rewriteSectionsExecutable) -/

/-- The loop finding the highest-indexed section with a pending edit. -/
def execFindLastReplacedGo (e : ElfFile) : Nat → Nat → Nat → Except Err Nat
  | _, 0, acc => .ok acc
  | i, r + 1, acc => do
    let s ← elfAt e.shdrs i
    let name ← getSectionName e s
    if hasReplacedSection e name then execFindLastReplacedGo e (i + 1) r i
    else execFindLastReplacedGo e (i + 1) r acc

structure ExecWalkResult where
  file : ElfFile
  startOffset : Nat
  startAddr : Nat
  lastReplaced : Nat
deriving DecidableEq, Repr

/-- The prefix walk of the executable strategy (the loop at the start of
rewriteSectionsExecutable): from index 1 up to the last replaced index,
stop at the first section that is PROGBITS and not .interp, or whose
predecessor in the walk is .dynstr; every other not-yet-edited section is
scheduled as a pass-through edit of its current size. -/
def execWalkGo (lr : Nat) :
    ElfFile → Nat → Nat → Nat → List Char → Nat → Except Err ExecWalkResult
  | e, _, so, sa, _, 0 => .ok ⟨e, so, sa, lr⟩
  | e, i, so, sa, prev, r + 1 =>
    (elfAt e.shdrs i) >>= fun shdr =>
    (getSectionName e shdr) >>= fun name =>
    if (shdr.sh_type = SHT_PROGBITS ∧ name ≠ interpName) ∨ prev = dynstrName then
      .ok ⟨e, shdr.sh_offset, shdr.sh_addr, i - 1⟩
    else
      (if hasReplacedSection e name then pure e else replaceSection e name shdr.sh_size) >>= fun e2 =>
      execWalkGo lr e2 (i + 1) so sa name r

/-- Lines 789-830 of the source: find lastReplaced, assert it nonzero and
not last, initialise startOffset / startAddr from the following section
and run the walk. -/
def execWalk (e : ElfFile) : Except Err ExecWalkResult :=
  (execFindLastReplacedGo e 1 (e.e_shnum - 1) 0) >>= fun lr =>
  if lr = 0 then .error "assertion failed: lastReplaced not zero"
  else if ¬ lr + 1 < e.shdrs.length then
    .error "assertion failed: lastReplaced + 1 within shdrs"
  else
    (elfAt e.shdrs (lr + 1)) >>= fun nxt =>
    execWalkGo lr e 1 nxt.sh_offset nxt.sh_addr [] lr

/-- Sum of the pending-edit sizes, each rounded up to the section
alignment, on top of a base. -/
def sumEditsAligned (reps : List (List Char × List Nat)) (base : Nat) : Nat :=
  reps.foldl (fun acc kv => acc + roundUp kv.2.length sectionAlignment) base

/-- Moving the SHT to the end of the file when it starts before the
reserved region (source lines 839-854). -/
def execMoveShtIfNeeded (e : ElfFile) (startOffset : Nat) : Except Err ElfFile :=
  if e.e_shoff < startOffset then
    -- the source asserts e_shnum == shdrs.size() after the resize; the
    -- check is hoisted before it, which is unobservable.  shoffNew is the
    -- pre-resize size; shSize adds e_shoff, exactly as the source does
    if e.e_shnum ≠ e.shdrs.length then .error "assertion failed: e_shnum equals shdrs size"
    else
      let e1 := { e with
                  fileContents := e.fileContents ++
                    List.replicate (e.e_shoff + e.e_shnum * e.e_shentsize) 0
                  e_shoff := e.fileContents.length }
      (sortShdrs e1) >>= fun sr =>
      let e2 := { e1 with shdrs := sr.1, e_shstrndx := sr.2 }
      .ok { e2 with fileContents := writeShdrTable e2.fileContents e2.e_shoff e2.shdrs }
  else .ok e

/-- Ensure the PHT is covered by a PT_LOAD: extend the first covering
load segment whose file size is short (source lines 898-907). -/
def extendCoveringLoadGo (curOff neededSpace : Nat) : List Phdr → List Phdr
  | [] => []
  | p :: rest =>
    if p.p_type = PT_LOAD ∧ p.p_offset ≤ curOff ∧ p.p_offset + p.p_filesz > curOff ∧
       p.p_filesz < neededSpace then
      { p with p_filesz := neededSpace, p_memsz := neededSpace } :: rest
    else p :: extendCoveringLoadGo curOff neededSpace rest

/-- The growth step of the executable strategy: when the needed header
space exceeds the reserved startOffset, account for one more program
header and shift the file by whole pages.  Returns the state, the needed
space, firstPage and startOffset (the latter two adjusted by the
shift). -/
def execGrowIfNeeded (e4 : ElfFile) (needed0 firstPage startOffset : Nat) :
    Except Err (ElfFile × Nat × Nat × Nat) :=
  if needed0 > startOffset then
    if (1 + roundUp (needed0 + phdrSize - startOffset) (getPageSize e4) / getPageSize e4) *
         getPageSize e4 > firstPage then
      .error "virtual address space underrun!"
    else
      (shiftFile e4 (1 + roundUp (needed0 + phdrSize - startOffset) (getPageSize e4) / getPageSize e4)
         startOffset (needed0 + phdrSize - startOffset)) >>= fun e5 =>
      pure (e5, needed0 + phdrSize,
            firstPage - (1 + roundUp (needed0 + phdrSize - startOffset) (getPageSize e4) / getPageSize e4) *
              getPageSize e4,
            startOffset + (1 + roundUp (needed0 + phdrSize - startOffset) (getPageSize e4) / getPageSize e4) *
              getPageSize e4)
  else pure (e4, needed0, firstPage, startOffset)

/-- ElfFile::rewriteSectionsExecutable (noSort is never set by this
stripped source, so the sorts always run). -/
def rewriteSectionsExecutable (e0 : ElfFile) : Except Err ElfFile :=
  (sortShdrs e0) >>= fun sr0 =>
  (execWalk { e0 with shdrs := sr0.1, e_shstrndx := sr0.2 }) >>= fun w =>
  if ¬ w.startAddr % getPageSize w.file = w.startOffset % getPageSize w.file then
    .error "assertion failed: startAddr congruent to startOffset modulo page size"
  else
    (execMoveShtIfNeeded w.file w.startOffset) >>= fun e3 =>
    (normalizeNoteSegments e3) >>= fun e4 =>
    (execGrowIfNeeded e4
       (sumEditsAligned e4.replacedSections (ehdrSize + e4.phdrs.length * phdrSize))
       (w.startAddr - w.startOffset) w.startOffset) >>= fun res =>
    let curOff := ehdrSize + res.1.phdrs.length * phdrSize
    let e6 := { res.1 with phdrs := extendCoveringLoadGo curOff res.2.1 res.1.phdrs }
    let e7 := { e6 with
                fileContents := storeBytes e6.fileContents curOff
                  (List.replicate (res.2.2.2 - curOff) 0) }
    (writeReplacedSections e7 curOff res.2.2.1 0) >>= fun wr =>
    if wr.2 ≠ res.2.1 then .error "assertion failed: write cursor at needed space"
    else rewriteHeaders wr.1 (res.2.2.1 + wr.1.e_phoff)

/-! ## The library strategy (ElfFile::rewriteSectionsLibrary) -/

/-- Largest p_vaddr + p_memsz over the PHT. -/
def libMaxAddr (e : ElfFile) : Nat :=
  e.phdrs.foldl (fun acc p => max acc (p.p_vaddr + p.p_memsz)) 0

/-- The base address of the PHT segment (last PT_PHDR wins). -/
def libFirstPage (e : ElfFile) : Nat :=
  e.phdrs.foldl (fun acc p => if p.p_type = PT_PHDR then p.p_vaddr - p.p_offset else acc) 0

/-- The page-start alignment: at least the page size, and at least every
p_align (read into a 32-bit unsigned in the source, hence the
truncation). -/
def libAlignStartPage (e : ElfFile) : Nat :=
  e.phdrs.foldl (fun acc p => max acc (p.p_align % 2 ^ 32)) (getPageSize e)

/-- Count of SHT_NOTE sections. -/
def libNumNotes (e : ElfFile) : Nat :=
  (e.shdrs.filter (fun s => s.sh_type = SHT_NOTE)).length

/-- Worst-case size of the relocated PHT region, aligned. -/
def libPhtSize (e : ElfFile) : Nat :=
  roundUp ((e.phdrs.length + libNumNotes e + 1) * phdrSize + ehdrSize) sectionAlignment

/-- Size of the SHT region, aligned. -/
def libShtSize (e : ElfFile) : Nat :=
  roundUp (e.e_shnum * e.e_shentsize) sectionAlignment

/-- The scan deciding whether the PHT must be relocated to the end of the
file: a section inside the projected PHT-at-start footprint that is
neither already edited nor replaceable forces relocation. -/
def libRelocatePhtGo (e : ElfFile) (phtSize : Nat) : Nat → Nat → Except Err Bool
  | _, 0 => .ok false
  | i, r + 1 =>
    if i < e.e_shnum then do
      let shdr ← elfAt e.shdrs i
      if shdr.sh_offset ≤ phtSize then do
        let name ← getSectionName e shdr
        let canR ← canReplaceSection e name
        if ¬ hasReplacedSection e name ∧ ¬ canR then .ok true
        else libRelocatePhtGo e phtSize (i + 1) r
      else .ok false
    else .ok false

/-- When the PHT stays at the start, eagerly schedule the sections in its
footprint as same-size pass-through edits. -/
def libScheduleGo (phtSize : Nat) : ElfFile → Nat → Nat → Except Err ElfFile
  | e, _, 0 => .ok e
  | e, i, r + 1 =>
    if i < e.e_shnum then
      (elfAt e.shdrs i) >>= fun shdr =>
      if shdr.sh_offset ≤ phtSize then
        (getSectionName e shdr) >>= fun name =>
        (if ¬ hasReplacedSection e name then replaceSection e name shdr.sh_size
         else pure e) >>= fun e2 =>
        libScheduleGo phtSize e2 (i + 1) r
      else .ok e
    else .ok e

/-- neededSpace of the library strategy: the aligned SHT size, plus the
aligned PHT size when relocating, plus the aligned pending-edit sizes. -/
def libNeededSpace (reloc : Bool) (shtSize phtSize : Nat)
    (reps : List (List Char × List Nat)) : Nat :=
  sumEditsAligned reps (shtSize + if reloc then phtSize else 0)

/-- startOffset of the library strategy: the current file size rounded up
to the page-start alignment. -/
def libStartOff (e0 e1 : ElfFile) : Nat :=
  roundUp e1.fileContents.length (libAlignStartPage e0)

/-- neededSpace of the library strategy on the scheduled state. -/
def libNeeded (e0 : ElfFile) (reloc : Bool) (e1 : ElfFile) : Nat :=
  libNeededSpace reloc (libShtSize e0) (libPhtSize e0) e1.replacedSections

/-- The last-PT_LOAD extension or fresh PT_LOAD allocation of the library
strategy (source lines 706-742); returns the new table, the new e_phnum
and lastSegAddr. -/
def libPlacePhdr (phdrs : List Phdr) (phnum : Nat) (lastSeg : Phdr)
    (alignSP startOffset neededSpace startPage : Nat) :
    Except Err (List Phdr × Nat × Nat) :=
  (if lastSeg.p_type = PT_LOAD ∧ lastSeg.p_flags = PF_R + PF_W ∧
      lastSeg.p_align = alignSP ∧ roundUp (lastSeg.p_offset + lastSeg.p_memsz) alignSP = startOffset then
    pure (phdrs.dropLast ++ [{ lastSeg with p_filesz := startOffset + neededSpace - lastSeg.p_offset, p_memsz := startOffset + neededSpace - lastSeg.p_offset }],
          phnum, lastSeg.p_vaddr + (startOffset + neededSpace - lastSeg.p_offset) - neededSpace)
   else pure (phdrs, phnum, 0)) >>= fun er =>
  if er.2.2 = 0 then
    if (er.2.1 + 1) % 65536 = 0 then .error "vector index out of range"
    else
      if ¬ startPage % alignSP = startOffset % alignSP then
        .error "assertion failed: startPage congruent to startOffset"
      else
        pure ((er.1.take (er.2.1 + 1) ++ List.replicate (er.2.1 + 1 - er.1.length) default).set
                ((er.2.1 + 1) % 65536 - 1)
                { p_type := PT_LOAD
                  p_flags := PF_R + PF_W
                  p_offset := startOffset
                  p_vaddr := startPage
                  p_paddr := startPage
                  p_filesz := neededSpace
                  p_memsz := neededSpace
                  p_align := alignSP },
              (er.2.1 + 1) % 65536, startPage)
  else pure er

/-- ElfFile::rewriteSectionsLibrary.  The resize to
startOffset + neededSpace + 1 (the binutilsQuirkPadding byte) only
touches fileContents, so the phdrs.back() read is on e1's table,
definitionally the same as the resized state's. -/
def rewriteSectionsLibrary (e0 : ElfFile) : Except Err ElfFile :=
  (libRelocatePhtGo e0 (libPhtSize e0) 1 e0.e_shnum) >>= fun relocatePht =>
  (if relocatePht then pure e0 else libScheduleGo (libPhtSize e0) e0 1 e0.e_shnum) >>= fun e1 =>
  (match e1.phdrs.getLast? with
   | none => .error "vector access out of bounds: phdrs back on empty table"
   | some lastSeg =>
     libPlacePhdr e1.phdrs e1.e_phnum lastSeg (libAlignStartPage e0)
       (libStartOff e0 e1) (libNeeded e0 relocatePht e1)
       (roundUp (libMaxAddr e0) (libAlignStartPage e0))) >>= fun fin =>
  (normalizeNoteSegments
     { e1 with
       fileContents := listResize e1.fileContents
         (libStartOff e0 e1 + libNeeded e0 relocatePht e1 + 1)
       phdrs := fin.1
       e_phnum := fin.2.1 }) >>= fun e4 =>
  (writeReplacedSections
     { e4 with
       e_phoff := if relocatePht then libStartOff e0 e1 else e4.e_phoff
       e_shoff := (if relocatePht then libStartOff e0 e1 + libPhtSize e0 else libStartOff e0 e1) }
     ((if relocatePht then libStartOff e0 e1 + libPhtSize e0 else libStartOff e0 e1) + libShtSize e0)
     (roundUp (libMaxAddr e0) (libAlignStartPage e0)) (libStartOff e0 e1)) >>= fun wr =>
  if wr.2 ≠ libStartOff e0 e1 + libNeeded e0 relocatePht e1 then
    .error "assertion failed: write cursor at startOffset plus needed space"
  else if relocatePht then rewriteHeaders wr.1 fin.2.2
  else rewriteHeaders wr.1 (libFirstPage e0 + wr.1.e_phoff)

/-! ## Commit (ElfFile::rewriteSections) -/

/-- ElfFile::rewriteSections(force): a no-op when not forced and no edits
are pending; otherwise dispatch on e_type. -/
def rewriteSections (e : ElfFile) (force : Bool) : Except Err ElfFile :=
  if ¬ force ∧ e.replacedSections = [] then .ok e
  else if e.e_type = ET_DYN then rewriteSectionsLibrary e
  else if e.e_type = ET_EXEC then rewriteSectionsExecutable e
  else .error "unknown ELF type"

/-! ## Generic lemmas about the model's building blocks -/

theorem exBindOk {α β : Type} {x : Except Err α} {f : α → Except Err β} {v : β}
    (h : (x >>= f) = .ok v) : ∃ a, x = .ok a ∧ f a = .ok v := by
  cases x with
  | error e => simp [Bind.bind, Except.bind] at h
  | ok a => exact ⟨a, rfl, by simpa [Bind.bind, Except.bind] using h⟩

theorem listResize_length (s : List Nat) (n : Nat) : (listResize s n).length = n := by
  simp [listResize]
  omega

theorem listResize_getD_lt {s : List Nat} {n j : Nat} (h1 : j < s.length) (h2 : j < n) :
    (listResize s n).getD j 0 = s.getD j 0 := by
  simp only [listResize, List.getD]
  rw [List.get?_append (by simp [List.length_take]; omega), List.get?_take h2]

theorem listResize_getD_ge {s : List Nat} {n j : Nat} (h1 : s.length ≤ j) (h2 : j < n) :
    (listResize s n).getD j 0 = 0 := by
  simp only [listResize, List.getD]
  have hlen : (s.take n).length = s.length := by simp [List.length_take]; omega
  rw [List.get?_append_right (by omega)]
  have : j - (s.take n).length < n - s.length := by omega
  rw [List.get?_eq_get (by simpa using this)]
  simp

theorem extractBytes_getD {c : List Nat} {off sz j : Nat} (h : j < sz) :
    (extractBytes c off sz).getD j 0 = c.getD (off + j) 0 := by
  simp only [extractBytes, List.getD]
  rw [List.get?_take h, List.get?_drop]

theorem secLookup_insert_self (m : List (List Char × List Nat)) (k : List Char) (v : List Nat) :
    secLookup (secInsert m k v) k = some v := by
  induction m with
  | nil => simp [secInsert, secLookup]
  | cons hd tl ih =>
    by_cases h : hd.1 = k
    · simp [secInsert, secLookup, h]
    · simp [secInsert, secLookup, h, ih]

theorem secLookup_insert_other (m : List (List Char × List Nat)) (k k2 : List Char)
    (v : List Nat) (h : k2 ≠ k) : secLookup (secInsert m k v) k2 = secLookup m k2 := by
  induction m with
  | nil => simp only [secInsert, secLookup, if_neg (Ne.symm h)]
  | cons hd tl ih =>
    rcases hd with ⟨hk, hv⟩
    by_cases hh : hk = k
    · subst hh
      simp only [secInsert, if_pos rfl, secLookup]
      rw [if_neg (Ne.symm h), if_neg (Ne.symm h)]
    · simp only [secInsert, if_neg hh, secLookup]
      by_cases hk2 : hk = k2
      · rw [if_pos hk2, if_pos hk2]
      · rw [if_neg hk2, if_neg hk2]
        exact ih

/-- Number of entries of the pending-edit map carrying a given name. -/
def keyCount (m : List (List Char × List Nat)) (k : List Char) : Nat :=
  (m.filter (fun kv => kv.1 = k)).length

theorem keyCount_eq_zero {m : List (List Char × List Nat)} {k : List Char}
    (h : k ∉ m.map Prod.fst) : keyCount m k = 0 := by
  induction m with
  | nil => rfl
  | cons hd tl ih =>
    simp only [List.map_cons, List.mem_cons, not_or] at h
    simp only [keyCount, List.filter]
    rw [decide_eq_false (fun hh : hd.1 = k => h.1 (hh ▸ rfl))]
    exact ih h.2

theorem secInsert_keys_mem (m : List (List Char × List Nat)) (k : List Char)
    (v : List Nat) (a : List Char) :
    a ∈ (secInsert m k v).map Prod.fst ↔ a ∈ m.map Prod.fst ∨ a = k := by
  induction m with
  | nil => simp [secInsert]
  | cons hd tl ih =>
    by_cases h : hd.1 = k
    · simp only [secInsert, if_pos h, List.map_cons, List.mem_cons]
      subst h
      tauto
    · simp only [secInsert, if_neg h, List.map_cons, List.mem_cons, ih]
      tauto

theorem secInsert_keys_nodup (m : List (List Char × List Nat)) (k : List Char) (v : List Nat)
    (h : (m.map Prod.fst).Nodup) : ((secInsert m k v).map Prod.fst).Nodup := by
  induction m with
  | nil => simp [secInsert]
  | cons hd tl ih =>
    rw [List.map_cons, List.nodup_cons] at h
    by_cases hh : hd.1 = k
    · subst hh
      simpa [secInsert, List.nodup_cons] using h
    · simp only [secInsert, if_neg hh, List.map_cons, List.nodup_cons]
      refine ⟨?_, ih h.2⟩
      rw [secInsert_keys_mem]
      rintro (h1 | h1)
      · exact h.1 h1
      · exact hh h1

theorem secInsert_keyCount (m : List (List Char × List Nat)) (k : List Char) (v : List Nat)
    (h : (m.map Prod.fst).Nodup) : keyCount (secInsert m k v) k = 1 := by
  induction m with
  | nil => simp [secInsert, keyCount, List.filter]
  | cons hd tl ih =>
    rw [List.map_cons, List.nodup_cons] at h
    by_cases hh : hd.1 = k
    · subst hh
      simp only [secInsert, if_pos rfl, keyCount, List.filter, decide_eq_true rfl]
      simpa [keyCount] using keyCount_eq_zero h.1
    · simp only [secInsert, if_neg hh, keyCount, List.filter]
      rw [decide_eq_false hh]
      exact ih h.2

/-! ## C8: canReplaceSection -/

/-- C8: for a section name that exists in the SHT (findSectionHeader
succeeds), canReplaceSection returns true if and only if the name is
.interp or the section type is not SHT_PROGBITS. -/
theorem C8_canReplaceSection (e : ElfFile) (name : List Char) (shdr : Shdr)
    (hfind : findSectionHeader e name = .ok shdr) :
    ∃ b, canReplaceSection e name = .ok b ∧
      (b = true ↔ (name = interpName ∨ shdr.sh_type ≠ SHT_PROGBITS)) := by
  refine ⟨name == interpName || shdr.sh_type != SHT_PROGBITS, ?_, ?_⟩
  · simp [canReplaceSection, hfind, Bind.bind, Except.bind, pure, Except.pure]
  · simp [Bool.or_eq_true, beq_iff_eq, bne_iff_ne]

/-! ## C1: replaceSection -/

/-- C1: for a name present in the SHT, replaceSection(name, size) stores
(and returns) a buffer that starts from the pending edit for that name if
one exists and otherwise from the on-disk bytes of the section at
sh_offset, resized to exactly size: the first min(oldSize, size) bytes
are kept, a grown suffix is zero-filled, a shrink truncates; the buffer
is the unique pending edit under that name and the other entries are
untouched. -/
theorem C1_replaceSection (e : ElfFile) (name : List Char) (size : Nat) (shdr : Shdr)
    (hfind : findSectionHeader e name = .ok shdr)
    (hnodup : (e.replacedSections.map Prod.fst).Nodup) :
    ∃ e2 buf, replaceSection e name size = .ok e2 ∧
      secLookup e2.replacedSections name = some buf ∧
      buf.length = size ∧
      (∀ old, secLookup e.replacedSections name = some old →
        (∀ j, j < old.length → j < size → buf.getD j 0 = old.getD j 0) ∧
        (∀ j, old.length ≤ j → j < size → buf.getD j 0 = 0)) ∧
      (secLookup e.replacedSections name = none →
        (∀ j, j < shdr.sh_size → j < size →
          buf.getD j 0 = e.fileContents.getD (shdr.sh_offset + j) 0) ∧
        (∀ j, shdr.sh_size ≤ j → j < size → buf.getD j 0 = 0)) ∧
      ((e2.replacedSections.map Prod.fst).Nodup ∧ keyCount e2.replacedSections name = 1) ∧
      (∀ k, k ≠ name → secLookup e2.replacedSections k = secLookup e.replacedSections k) := by
  cases hlook : secLookup e.replacedSections name with
  | some old =>
    refine ⟨{ e with replacedSections := secInsert e.replacedSections name (listResize old size) },
      listResize old size, ?_, ?_, listResize_length old size, ?_, ?_, ⟨?_, ?_⟩, ?_⟩
    · simp [replaceSection, hlook, Bind.bind, Except.bind, pure, Except.pure]
    · exact secLookup_insert_self _ _ _
    · intro old' h'
      cases h'
      exact ⟨fun j hj1 hj2 => listResize_getD_lt hj1 hj2,
             fun j hj1 hj2 => listResize_getD_ge hj1 hj2⟩
    · intro h'
      exact Option.noConfusion h'
    · exact secInsert_keys_nodup _ _ _ hnodup
    · exact secInsert_keyCount _ _ _ hnodup
    · intro k hk
      exact secLookup_insert_other _ _ _ _ hk
  | none =>
    have hbuf : ∃ buf, buf = listResize (extractBytes e.fileContents shdr.sh_offset shdr.sh_size) size :=
      ⟨_, rfl⟩
    obtain ⟨buf, hbufdef⟩ := hbuf
    refine ⟨{ e with replacedSections := secInsert e.replacedSections name buf },
      buf, ?_, ?_, ?_, ?_, ?_, ⟨?_, ?_⟩, ?_⟩
    · simp [replaceSection, hlook, hfind, Bind.bind, Except.bind, pure, Except.pure, hbufdef]
    · exact secLookup_insert_self _ _ _
    · rw [hbufdef]
      exact listResize_length _ size
    · intro old' h'
      exact Option.noConfusion h'
    · intro _
      subst hbufdef
      constructor
      · intro j hj1 hj2
        by_cases hb : j < (extractBytes e.fileContents shdr.sh_offset shdr.sh_size).length
        · rw [listResize_getD_lt hb hj2, extractBytes_getD hj1]
        · have hlen : (extractBytes e.fileContents shdr.sh_offset shdr.sh_size).length =
              min shdr.sh_size (e.fileContents.length - shdr.sh_offset) := by
            simp [extractBytes]
          rw [listResize_getD_ge (by omega) hj2]
          rw [List.getD_eq_default]
          omega
      · intro j hj1 hj2
        have hlen : (extractBytes e.fileContents shdr.sh_offset shdr.sh_size).length ≤
            shdr.sh_size := by
          simp [extractBytes]
        exact listResize_getD_ge (by omega) hj2
    · exact secInsert_keys_nodup _ _ _ hnodup
    · exact secInsert_keyCount _ _ _ hnodup
    · intro k hk
      exact secLookup_insert_other _ _ _ _ hk

/-! ## Concrete example states (used by witnesses and counterexamples) -/

instance {ε α : Type} [DecidableEq ε] [DecidableEq α] : DecidableEq (Except ε α) := fun x y =>
  match x, y with
  | .ok a, .ok b =>
    if h : a = b then isTrue (by rw [h]) else isFalse (by intro hh; cases hh; exact h rfl)
  | .error a, .error b =>
    if h : a = b then isTrue (by rw [h]) else isFalse (by intro hh; cases hh; exact h rfl)
  | .ok _, .error _ => isFalse (by intro hh; cases hh)
  | .error _, .ok _ => isFalse (by intro hh; cases hh)

def exSuccess {α : Type} (x : Except Err α) : Bool :=
  match x with
  | .ok _ => true
  | .error _ => false

theorem exSuccess_elim {α : Type} {x : Except Err α} (h : exSuccess x = true) :
    ∃ a, x = .ok a := by
  cases hx : x with
  | error m => rw [hx] at h; simp [exSuccess] at h
  | ok a => exact ⟨a, rfl⟩

def wNull : Shdr :=
  { sh_name := 0, sh_type := 0, sh_flags := 0, sh_addr := 0, sh_offset := 0,
    sh_size := 0, sh_link := 0, sh_info := 0, sh_addralign := 0, sh_entsize := 0 }

/-- Section-name string table: one NUL, then .foo NUL, then .bar NUL. -/
def wNames : List Char := [0, 46, 102, 111, 111, 0, 46, 98, 97, 114, 0].map Char.ofNat

def wFooName : List Char := [46, 102, 111, 111].map Char.ofNat
def wBarName : List Char := [46, 98, 97, 114].map Char.ofNat

def wFoo : Shdr := { wNull with sh_name := 1, sh_type := 8, sh_offset := 100, sh_size := 4 }
def wBar : Shdr := { wNull with sh_name := 6, sh_type := 1, sh_offset := 120, sh_size := 4 }

/-- A small well-formed ET_DYN state with two sections. -/
def wBase : ElfFile :=
  { fileContents := List.replicate 200 7
    littleEndian := true
    e_type := ET_DYN
    e_machine := 62
    e_phoff := 64
    e_shoff := 0
    e_phnum := 1
    e_phentsize := 56
    e_shnum := 3
    e_shentsize := 64
    e_shstrndx := 0
    phdrs := [{ p_type := PT_LOAD, p_flags := 5, p_offset := 0, p_vaddr := 0, p_paddr := 0,
                p_filesz := 200, p_memsz := 200, p_align := 4096 }]
    shdrs := [wNull, wFoo, wBar]
    sectionNames := wNames
    sectionsByOldIndex := [[], wFooName, wBarName]
    replacedSections := []
    clobberOldSections := false }

/-- wBase with one pending edit on .foo. -/
def wLib : ElfFile := { wBase with replacedSections := [(wFooName, [1, 2, 3])] }

/-- A minimal well-formed 129-byte ELF image (64-bit, little-endian,
ET_DYN, no program headers, a single section header that doubles as the
shstrtab with a one-byte NUL string table at offset 128). -/
def wImage : List Nat :=
  [0x7f, 69, 76, 70, 2, 1, 1, 0, 0, 0, 0, 0, 0, 0, 0, 0] ++
  [3, 0] ++ [62, 0] ++ [1, 0, 0, 0] ++ List.replicate 8 0 ++
  List.replicate 8 0 ++ ([64] ++ List.replicate 7 0) ++
  [0, 0, 0, 0] ++ [64, 0] ++ [56, 0] ++ [0, 0] ++ [64, 0] ++ [1, 0] ++ [0, 0] ++
  (List.replicate 24 0 ++ ([128] ++ List.replicate 7 0) ++ ([1] ++ List.replicate 7 0) ++
   List.replicate 24 0) ++
  [0]

/-- Witness for C8 at a concrete state: .bar exists and is PROGBITS. -/
theorem C8_canReplaceSection_witness :
    ∃ b, canReplaceSection wBase wBarName = .ok b ∧
      (b = true ↔ (wBarName = interpName ∨ wBar.sh_type ≠ SHT_PROGBITS)) :=
  C8_canReplaceSection wBase wBarName wBar (by decide)

/-- Witness for C1 at a concrete state: grow .foo from 4 to 6 bytes. -/
theorem C1_replaceSection_witness :
    ∃ e2 buf, replaceSection wBase wFooName 6 = .ok e2 ∧
      secLookup e2.replacedSections wFooName = some buf ∧
      buf.length = 6 ∧
      (∀ old, secLookup wBase.replacedSections wFooName = some old →
        (∀ j, j < old.length → j < 6 → buf.getD j 0 = old.getD j 0) ∧
        (∀ j, old.length ≤ j → j < 6 → buf.getD j 0 = 0)) ∧
      (secLookup wBase.replacedSections wFooName = none →
        (∀ j, j < wFoo.sh_size → j < 6 →
          buf.getD j 0 = wBase.fileContents.getD (wFoo.sh_offset + j) 0) ∧
        (∀ j, wFoo.sh_size ≤ j → j < 6 → buf.getD j 0 = 0)) ∧
      ((e2.replacedSections.map Prod.fst).Nodup ∧ keyCount e2.replacedSections wFooName = 1) ∧
      (∀ k, k ≠ wFooName → secLookup e2.replacedSections k = secLookup wBase.replacedSections k) :=
  C1_replaceSection wBase wFooName 6 wFoo (by decide) (by decide)

/-! ## C2: open then commit with no pending edits is a no-op -/

theorem openElf_shape {b : List Nat} {e : ElfFile} (h : openElf b = .ok e) :
    e.fileContents = b ∧ e.replacedSections = [] := by
  delta openElf at h
  by_cases h1 : b.length < ehdrSize
  · rw [if_pos h1] at h; cases h
  rw [if_neg h1] at h
  by_cases h2 : ¬ elfMagicOk b = true
  · rw [if_pos h2] at h; cases h
  rw [if_neg h2] at h
  by_cases h3 : ehdrType b ≠ ET_EXEC ∧ ehdrType b ≠ ET_DYN
  · rw [if_pos h3] at h; cases h
  rw [if_neg h3] at h
  cases hm1 : checkedMul (ehdrPhnum b) (ehdrPhentsize b) with
  | none => rw [hm1] at h; cases h
  | some phSize =>
  rw [hm1] at h
  dsimp only [] at h
  cases hm2 : checkedAdd (ehdrPhoff b) phSize with
  | none => rw [hm2] at h; cases h
  | some phEnd =>
  rw [hm2] at h
  dsimp only [] at h
  by_cases h4 : phEnd > b.length
  · rw [if_pos h4] at h; cases h
  rw [if_neg h4] at h
  by_cases h5 : ehdrShnum b = 0
  · rw [if_pos h5] at h; cases h
  rw [if_neg h5] at h
  cases hm3 : checkedMul (ehdrShnum b) (ehdrShentsize b) with
  | none => rw [hm3] at h; cases h
  | some shSize =>
  rw [hm3] at h
  dsimp only [] at h
  cases hm4 : checkedAdd (ehdrShoff b) shSize with
  | none => rw [hm4] at h; cases h
  | some shEnd =>
  rw [hm4] at h
  dsimp only [] at h
  by_cases h6 : shEnd > b.length
  · rw [if_pos h6] at h; cases h
  rw [if_neg h6] at h
  by_cases h7 : ehdrPhentsize b ≠ phdrSize
  · rw [if_pos h7] at h; cases h
  rw [if_neg h7] at h
  obtain ⟨phdrs, hph, h⟩ := exBindOk h
  obtain ⟨shdrs, hsh, h⟩ := exBindOk h
  by_cases h8 : ehdrShstrndx b ≥ shdrs.length
  · rw [if_pos h8] at h; cases h
  rw [if_neg h8] at h
  obtain ⟨stShdr, hst, h⟩ := exBindOk h
  obtain ⟨u, hcr, h⟩ := exBindOk h
  by_cases h9 : stShdr.sh_size = 0
  · rw [if_pos h9] at h; cases h
  rw [if_neg h9] at h
  by_cases h10 : readByte b (stShdr.sh_offset + stShdr.sh_size - 1) ≠ 0
  · rw [if_pos h10] at h; cases h
  rw [if_neg h10] at h
  obtain ⟨oldIdx, hoi, h⟩ := exBindOk h
  simp only [pure, Except.pure] at h
  cases h
  exact ⟨rfl, rfl⟩

/-- C2: for every input image that opens successfully, a commit with
force = false and no pending edits mutates nothing: rewriteSections
returns the state unchanged and the byte buffer is the input, byte for
byte. -/
theorem C2_open_commit_noop (b : List Nat) (e : ElfFile) (h : openElf b = .ok e) :
    rewriteSections e false = .ok e ∧ e.fileContents = b := by
  obtain ⟨hb, hr⟩ := openElf_shape h
  exact ⟨by simp [rewriteSections, hr], hb⟩

/-- Witness for C2 on the concrete minimal image. -/
theorem C2_open_commit_noop_witness :
    ∃ e, openElf wImage = .ok e ∧ rewriteSections e false = .ok e ∧
      e.fileContents = wImage := by
  obtain ⟨e, he⟩ := exSuccess_elim (x := openElf wImage) (by decide)
  obtain ⟨h1, h2⟩ := C2_open_commit_noop wImage e he
  exact ⟨e, he, h1, h2⟩

/-! ## C6: the header-table bounds checks of open use checked arithmetic -/

theorem checkedMul_some {a b c : Nat} (h : checkedMul a b = some c) :
    a * b < 2 ^ 64 ∧ c = a * b := by
  unfold checkedMul at h
  split at h
  · cases h
    exact ⟨by assumption, rfl⟩
  · cases h

theorem checkedAdd_some {a b c : Nat} (h : checkedAdd a b = some c) :
    a + b < 2 ^ 64 ∧ c = a + b := by
  unfold checkedAdd at h
  split at h
  · cases h
    exact ⟨by assumption, rfl⟩
  · cases h

/-- C6: open fails with a structural error, and no object is produced,
whenever e_phnum * e_phentsize overflows 64-bit size_t, or e_phoff plus
that product overflows, or the table end exceeds the buffer size — and
likewise for the section header table.  The checks in openElf go through
checkedMul / checkedAdd, the non-wrapping counterparts of
__builtin_mul_overflow / __builtin_add_overflow. -/
theorem C6_open_bounds (b : List Nat)
    (hbad : ehdrPhnum b * ehdrPhentsize b ≥ 2 ^ 64 ∨
            ehdrPhoff b + ehdrPhnum b * ehdrPhentsize b ≥ 2 ^ 64 ∨
            ehdrPhoff b + ehdrPhnum b * ehdrPhentsize b > b.length ∨
            ehdrShnum b * ehdrShentsize b ≥ 2 ^ 64 ∨
            ehdrShoff b + ehdrShnum b * ehdrShentsize b ≥ 2 ^ 64 ∨
            ehdrShoff b + ehdrShnum b * ehdrShentsize b > b.length) :
    ∃ msg, openElf b = .error msg := by
  cases hx : openElf b with
  | error m => exact ⟨m, rfl⟩
  | ok e =>
    exfalso
    delta openElf at hx
    by_cases h1 : b.length < ehdrSize
    · rw [if_pos h1] at hx; cases hx
    rw [if_neg h1] at hx
    by_cases h2 : ¬ elfMagicOk b = true
    · rw [if_pos h2] at hx; cases hx
    rw [if_neg h2] at hx
    by_cases h3 : ehdrType b ≠ ET_EXEC ∧ ehdrType b ≠ ET_DYN
    · rw [if_pos h3] at hx; cases hx
    rw [if_neg h3] at hx
    cases hm1 : checkedMul (ehdrPhnum b) (ehdrPhentsize b) with
    | none => rw [hm1] at hx; cases hx
    | some phSize =>
    rw [hm1] at hx
    dsimp only [] at hx
    obtain ⟨hmul1, rfl⟩ := checkedMul_some hm1
    cases hm2 : checkedAdd (ehdrPhoff b) (ehdrPhnum b * ehdrPhentsize b) with
    | none => rw [hm2] at hx; cases hx
    | some phEnd =>
    rw [hm2] at hx
    dsimp only [] at hx
    obtain ⟨hadd1, rfl⟩ := checkedAdd_some hm2
    by_cases h4 : ehdrPhoff b + ehdrPhnum b * ehdrPhentsize b > b.length
    · rw [if_pos h4] at hx; cases hx
    rw [if_neg h4] at hx
    by_cases h5 : ehdrShnum b = 0
    · rw [if_pos h5] at hx; cases hx
    rw [if_neg h5] at hx
    cases hm3 : checkedMul (ehdrShnum b) (ehdrShentsize b) with
    | none => rw [hm3] at hx; cases hx
    | some shSize =>
    rw [hm3] at hx
    dsimp only [] at hx
    obtain ⟨hmul2, rfl⟩ := checkedMul_some hm3
    cases hm4 : checkedAdd (ehdrShoff b) (ehdrShnum b * ehdrShentsize b) with
    | none => rw [hm4] at hx; cases hx
    | some shEnd =>
    rw [hm4] at hx
    dsimp only [] at hx
    obtain ⟨hadd2, rfl⟩ := checkedAdd_some hm4
    by_cases h6 : ehdrShoff b + ehdrShnum b * ehdrShentsize b > b.length
    · rw [if_pos h6] at hx; cases hx
    rw [if_neg h6] at hx
    rcases hbad with hb | hb | hb | hb | hb | hb
    · omega
    · omega
    · omega
    · omega
    · omega
    · omega

/-- A 64-byte buffer whose e_phoff is 2^64 - 1, making
e_phoff + e_phnum * e_phentsize overflow. -/
def wBadImage : List Nat :=
  [0x7f, 69, 76, 70, 2, 1, 1, 0, 0, 0, 0, 0, 0, 0, 0, 0] ++
  [2, 0] ++ [62, 0] ++ [1, 0, 0, 0] ++ List.replicate 8 0 ++
  List.replicate 8 255 ++ List.replicate 8 0 ++
  [0, 0, 0, 0] ++ [64, 0] ++ [56, 0] ++ [1, 0] ++ [64, 0] ++ [1, 0] ++ [0, 0]

/-- Witness for C6: a concrete malformed header is rejected. -/
theorem C6_open_bounds_witness : ∃ msg, openElf wBadImage = .error msg :=
  C6_open_bounds wBadImage (Or.inr (Or.inl (by decide)))

/-! ## C9: the library strategy and an empty program-header table -/

theorem replaceSection_only_reps {e : ElfFile} {name : List Char} {size : Nat} {e2 : ElfFile}
    (h : replaceSection e name size = .ok e2) :
    e2 = { e with replacedSections := e2.replacedSections } := by
  delta replaceSection at h
  cases hlook : secLookup e.replacedSections name with
  | some s =>
    rw [hlook] at h
    cases h
    rfl
  | none =>
    rw [hlook] at h
    obtain ⟨shdr, hs, h⟩ := exBindOk h
    cases h
    rfl

theorem libScheduleGo_only_reps {phtSize : Nat} :
    ∀ r e i e2, libScheduleGo phtSize e i r = .ok e2 →
      e2 = { e with replacedSections := e2.replacedSections } := by
  intro r
  induction r with
  | zero =>
    intro e i e2 h
    unfold libScheduleGo at h
    cases h
    rfl
  | succ r ih =>
    intro e i e2 h
    unfold libScheduleGo at h
    by_cases h1 : i < e.e_shnum
    · rw [if_pos h1] at h
      obtain ⟨shdr, hsec, h⟩ := exBindOk h
      by_cases h2 : shdr.sh_offset ≤ phtSize
      · rw [if_pos h2] at h
        obtain ⟨name, hname, h⟩ := exBindOk h
        obtain ⟨e3, he3, h⟩ := exBindOk h
        have h3 : e3 = { e with replacedSections := e3.replacedSections } := by
          by_cases hc : ¬ hasReplacedSection e name = true
          · rw [if_pos hc] at he3
            exact replaceSection_only_reps he3
          · rw [if_neg hc] at he3
            simp only [pure, Except.pure] at he3
            cases he3
            rfl
        have h4 := ih e3 (i + 1) e2 h
        rw [h3] at h4
        exact h4
      · rw [if_neg h2] at h
        cases h
        rfl
    · rw [if_neg h1] at h
      cases h
      rfl

/-- C9: rewriteSectionsLibrary reads the last program header before
checking that the table is non-empty (phdrs.back() on an empty vector);
on a state with an empty PHT the strategy therefore never succeeds — in
the model the unchecked access is the error case of List.getLast?, in the
C++ original it is undefined behaviour.  Commit on an ET_DYN image hence
needs e_phnum at least 1; the spec states no such precondition. -/
theorem C9_library_empty_phdrs (e : ElfFile) (h : e.phdrs = []) :
    ∃ msg, rewriteSectionsLibrary e = .error msg := by
  cases hx : rewriteSectionsLibrary e with
  | error m => exact ⟨m, rfl⟩
  | ok efin =>
    exfalso
    delta rewriteSectionsLibrary at hx
    obtain ⟨reloc, hrel, hx⟩ := exBindOk hx
    obtain ⟨e1, hsched, hx⟩ := exBindOk hx
    have hph : e1.phdrs = [] := by
      by_cases hc : reloc = true
      · rw [if_pos hc] at hsched
        simp only [pure, Except.pure] at hsched
        cases hsched
        exact h
      · rw [if_neg hc] at hsched
        rw [libScheduleGo_only_reps _ _ _ _ hsched]
        exact h
    obtain ⟨fin, hmatch, hx⟩ := exBindOk hx
    rw [hph] at hmatch
    cases hmatch

/-- Witness for C9: a concrete ET_DYN state whose PHT is empty. -/
theorem C9_library_empty_phdrs_witness :
    ∃ msg, rewriteSectionsLibrary { wBase with phdrs := [] } = .error msg :=
  C9_library_empty_phdrs { wBase with phdrs := [] } (by decide)

/-! ## C10: a commit that runs a strategy clears the pending edits -/

theorem writeReplacedSections_clears {e : ElfFile} {c a s : Nat} {r : ElfFile × Nat}
    (h : writeReplacedSections e c a s = .ok r) : r.1.replacedSections = [] := by
  delta writeReplacedSections at h
  obtain ⟨b0, hb0, h⟩ := exBindOk h
  obtain ⟨w, hw, h⟩ := exBindOk h
  cases h
  rfl

theorem rewriteHeaders_reps {e : ElfFile} {a : Nat} {e2 : ElfFile}
    (h : rewriteHeaders e a = .ok e2) : e2.replacedSections = e.replacedSections := by
  delta rewriteHeaders at h
  by_cases h1 : e.e_shnum ≠ e.shdrs.length
  · rw [if_pos h1] at h; cases h
  rw [if_neg h1] at h
  obtain ⟨sr, hsr, h⟩ := exBindOk h
  obtain ⟨bytes3, hb3, h⟩ := exBindOk h
  obtain ⟨bytes4, hb4, h⟩ := exBindOk h
  cases h
  rfl

theorem rewriteSectionsLibrary_clears {e : ElfFile} {e2 : ElfFile}
    (h : rewriteSectionsLibrary e = .ok e2) : e2.replacedSections = [] := by
  delta rewriteSectionsLibrary at h
  obtain ⟨reloc, hrel, h⟩ := exBindOk h
  obtain ⟨e1, hsched, h⟩ := exBindOk h
  obtain ⟨fin, hfin, h⟩ := exBindOk h
  obtain ⟨e4, hnorm, h⟩ := exBindOk h
  obtain ⟨wr, hwr, h⟩ := exBindOk h
  by_cases h1 : wr.2 ≠ libStartOff e e1 + libNeeded e reloc e1
  · rw [if_pos h1] at h; cases h
  rw [if_neg h1] at h
  have hclr := writeReplacedSections_clears hwr
  by_cases h2 : reloc = true
  · rw [if_pos h2] at h
    rw [rewriteHeaders_reps h]
    exact hclr
  · rw [if_neg h2] at h
    rw [rewriteHeaders_reps h]
    exact hclr

theorem rewriteSectionsExecutable_clears {e : ElfFile} {e2 : ElfFile}
    (h : rewriteSectionsExecutable e = .ok e2) : e2.replacedSections = [] := by
  delta rewriteSectionsExecutable at h
  obtain ⟨sr0, hsr, h⟩ := exBindOk h
  obtain ⟨w, hw, h⟩ := exBindOk h
  split at h
  · cases h
  obtain ⟨e3, hmov, h⟩ := exBindOk h
  obtain ⟨e4, hnorm, h⟩ := exBindOk h
  obtain ⟨res, hgrow, h⟩ := exBindOk h
  obtain ⟨wr, hwr, h⟩ := exBindOk h
  by_cases h1 : wr.2 ≠ res.2.1
  · rw [if_pos h1] at h; cases h
  rw [if_neg h1] at h
  rw [rewriteHeaders_reps h]
  exact writeReplacedSections_clears hwr

/-- C10: every commit that completes a rewrite finishes with the
pending-edits map empty (writeReplacedSections clears it after the edited
sections are written), so an immediately following commit with
force = false is a no-op. -/
theorem C10_commit_clears_edits (e : ElfFile) (force : Bool) (e2 : ElfFile)
    (h : rewriteSections e force = .ok e2) :
    e2.replacedSections = [] ∧ rewriteSections e2 false = .ok e2 := by
  have hempty : e2.replacedSections = [] := by
    delta rewriteSections at h
    by_cases h1 : ¬ force = true ∧ e.replacedSections = []
    · rw [if_pos h1] at h
      cases h
      exact h1.2
    rw [if_neg h1] at h
    by_cases h2 : e.e_type = ET_DYN
    · rw [if_pos h2] at h
      exact rewriteSectionsLibrary_clears h
    rw [if_neg h2] at h
    by_cases h3 : e.e_type = ET_EXEC
    · rw [if_pos h3] at h
      exact rewriteSectionsExecutable_clears h
    rw [if_neg h3] at h
    cases h
  refine ⟨hempty, ?_⟩
  delta rewriteSections
  rw [if_pos ⟨by simp, hempty⟩]

/-- Witness for C10: commit on a state with a pending edit (the library
strategy runs end to end), then a second commit is a no-op. -/
theorem C10_commit_clears_edits_witness :
    ∃ e2, rewriteSections wLib false = .ok e2 ∧
      e2.replacedSections = [] ∧ rewriteSections e2 false = .ok e2 := by
  obtain ⟨e2, he⟩ := exSuccess_elim (x := rewriteSections wLib false) (by decide)
  exact ⟨e2, he, C10_commit_clears_edits wLib false e2 he⟩

/-! ## C5: the library strategy grows the buffer to startOffset + neededSpace + 1 -/

theorem storeBytes_length (l : List Nat) (off : Nat) (data : List Nat) :
    (storeBytes l off data).length = l.length := by
  simp only [storeBytes, List.length_append, List.length_take, List.length_drop]
  omega

theorem foldl_store_length {β : Type} (g : List Nat → β → List Nat)
    (hg : ∀ b x, (g b x).length = b.length) :
    ∀ (l : List β) (init : List Nat), (l.foldl g init).length = init.length := by
  intro l
  induction l with
  | nil => intro init; rfl
  | cons hd tl ih =>
    intro init
    simp only [List.foldl_cons]
    rw [ih (g init hd), hg]

theorem writePhdrTable_length (bytes : List Nat) (off : Nat) (phdrs : List Phdr) :
    (writePhdrTable bytes off phdrs).length = bytes.length := by
  exact foldl_store_length _ (fun b x => storeBytes_length _ _ _) _ _

theorem writeShdrTable_length (bytes : List Nat) (off : Nat) (shdrs : List Shdr) :
    (writeShdrTable bytes off shdrs).length = bytes.length := by
  exact foldl_store_length _ (fun b x => storeBytes_length _ _ _) _ _

theorem writeSyms_length (bytes : List Nat) (off : Nat) (syms : List Sym) :
    (writeSyms bytes off syms).length = bytes.length := by
  exact foldl_store_length _ (fun b x => storeBytes_length _ _ _) _ _

theorem dynGo_length (e : ElfFile) (tOff dAddr : Nat) :
    ∀ fuel bytes idx res, dynGo e tOff dAddr bytes idx fuel = .ok res →
      res.length = bytes.length := by
  intro fuel
  induction fuel with
  | zero => intro bytes idx res h; cases h
  | succ f ih =>
    intro bytes idx res h
    unfold dynGo at h
    split at h
    · cases h
      rfl
    obtain ⟨v?, hv, h⟩ := exBindOk h
    have := ih _ _ _ h
    rw [this]
    cases v? with
    | none => rfl
    | some v => exact storeBytes_length _ _ _

theorem rewriteDynamicSection_length {e : ElfFile} {bytes res : List Nat}
    (h : rewriteDynamicSection e bytes = .ok res) : res.length = bytes.length := by
  delta rewriteDynamicSection at h
  obtain ⟨sd?, hsd, h⟩ := exBindOk h
  cases sd? with
  | none =>
    simp only [pure, Except.pure] at h
    cases h
    rfl
  | some sd => exact dynGo_length _ _ _ _ _ _ _ h

theorem rewriteSymTablesGo_length (e : ElfFile) :
    ∀ r bytes i res, rewriteSymTablesGo e bytes i r = .ok res →
      res.length = bytes.length := by
  intro r
  induction r with
  | zero => intro bytes i res h; cases h; rfl
  | succ r ih =>
    intro bytes i res h
    unfold rewriteSymTablesGo at h
    obtain ⟨shdr, hs, h⟩ := exBindOk h
    split at h
    · exact ih _ _ _ h
    obtain ⟨prs, hm, h⟩ := exBindOk h
    rw [ih _ _ _ h, writeSyms_length]

theorem wrsClobberGo_length (e : ElfFile) :
    ∀ reps bytes res, wrsClobberGo e bytes reps = .ok res → res.length = bytes.length := by
  intro reps
  induction reps with
  | nil => intro bytes res h; cases h; rfl
  | cons hd tl ih =>
    intro bytes res h
    unfold wrsClobberGo at h
    obtain ⟨s, hs, h⟩ := exBindOk h
    split at h
    · rw [ih _ _ h, storeBytes_length]
    · exact ih _ _ h

theorem wrsGo_length (names : List Char) (reps : List (List Char × List Nat)) (sa so : Nat) :
    ∀ todo bytes phdrs noted curOff done r,
      wrsGo names reps sa so bytes phdrs noted curOff done todo = .ok r →
      r.1.length = bytes.length := by
  intro todo
  induction todo with
  | nil =>
    intro bytes phdrs noted curOff done r h
    cases h
    rfl
  | cons shdr rest ih =>
    intro bytes phdrs noted curOff done r h
    unfold wrsGo at h
    obtain ⟨name, hn, h⟩ := exBindOk h
    cases hlook : secLookup reps name with
    | none =>
      rw [hlook] at h
      exact ih _ _ _ _ _ _ h
    | some data =>
      rw [hlook] at h
      obtain ⟨r2, hr2, h⟩ := exBindOk h
      rw [ih _ _ _ _ _ _ h, storeBytes_length]

theorem writeReplacedSections_length {e : ElfFile} {c a s : Nat} {r : ElfFile × Nat}
    (h : writeReplacedSections e c a s = .ok r) :
    r.1.fileContents.length = e.fileContents.length := by
  delta writeReplacedSections at h
  obtain ⟨b0, hb0, h⟩ := exBindOk h
  obtain ⟨w, hw, h⟩ := exBindOk h
  cases h
  have h1 := wrsGo_length _ _ _ _ _ _ _ _ _ _ _ hw
  have h2 : b0.length = e.fileContents.length := by
    by_cases hc : e.clobberOldSections = true
    · rw [if_pos hc] at hb0
      exact wrsClobberGo_length _ _ _ _ hb0
    · rw [if_neg hc] at hb0
      simp only [pure, Except.pure] at hb0
      cases hb0
      rfl
  simpa [h2] using h1

theorem normalizeNoteSegments_fileContents {e e2 : ElfFile}
    (h : normalizeNoteSegments e = .ok e2) :
    e2.fileContents = e.fileContents ∧ e2.replacedSections = e.replacedSections := by
  delta normalizeNoteSegments at h
  obtain ⟨rn, hrn, h⟩ := exBindOk h
  split at h
  · cases h
    exact ⟨rfl, rfl⟩
  obtain ⟨pr, hpr, h⟩ := exBindOk h
  cases h
  exact ⟨rfl, rfl⟩

theorem rewriteHeaders_length {e : ElfFile} {a : Nat} {e2 : ElfFile}
    (h : rewriteHeaders e a = .ok e2) :
    e2.fileContents.length = e.fileContents.length := by
  delta rewriteHeaders at h
  by_cases h1 : e.e_shnum ≠ e.shdrs.length
  · rw [if_pos h1] at h; cases h
  rw [if_neg h1] at h
  obtain ⟨sr, hsr, h⟩ := exBindOk h
  obtain ⟨bytes3, hb3, h⟩ := exBindOk h
  obtain ⟨bytes4, hb4, h⟩ := exBindOk h
  cases h
  show bytes4.length = _
  rw [rewriteSymTablesGo_length _ _ _ _ _ hb4]
  show bytes3.length = _
  rw [rewriteDynamicSection_length hb3]
  show (writeShdrTable _ _ _).length = _
  rw [writeShdrTable_length]
  show (writePhdrTable _ _ _).length = _
  rw [writePhdrTable_length]

/-- C5: on every successful library commit, the byte buffer ends at
exactly startOffset + neededSpace + 1 bytes, where startOffset is the
input file size rounded up to the page-start alignment (libStartOff) and
neededSpace is the aligned SHT size, plus the aligned PHT size when the
PHT is relocated, plus the aligned sizes of the pending edits as they
stand after the eager scheduling pass (libNeeded); the extra byte is the
binutilsQuirkPadding, so the output is one byte longer than the space the
layout uses (the write cursor of writeReplacedSections stops at
startOffset + neededSpace). -/
theorem C5_library_grow (e0 e2 : ElfFile) (h : rewriteSectionsLibrary e0 = .ok e2) :
    ∃ reloc e1,
      libRelocatePhtGo e0 (libPhtSize e0) 1 e0.e_shnum = .ok reloc ∧
      (if reloc then pure e0 else libScheduleGo (libPhtSize e0) e0 1 e0.e_shnum) = .ok e1 ∧
      e1.fileContents = e0.fileContents ∧
      e2.fileContents.length = libStartOff e0 e1 + libNeeded e0 reloc e1 + 1 ∧
      ∃ ew cOff sAddr sOff wr, writeReplacedSections ew cOff sAddr sOff = .ok wr ∧
        wr.2 + 1 = e2.fileContents.length := by
  delta rewriteSectionsLibrary at h
  obtain ⟨reloc, hrel, h⟩ := exBindOk h
  obtain ⟨e1, hsched, h⟩ := exBindOk h
  obtain ⟨fin, hfin, h⟩ := exBindOk h
  obtain ⟨e4, hnorm, h⟩ := exBindOk h
  obtain ⟨wr, hwr, h⟩ := exBindOk h
  by_cases h1 : wr.2 ≠ libStartOff e0 e1 + libNeeded e0 reloc e1
  · rw [if_pos h1] at h; cases h
  rw [if_neg h1] at h
  have hfc1 : e1.fileContents = e0.fileContents := by
    by_cases hc : reloc = true
    · rw [if_pos hc] at hsched
      simp only [pure, Except.pure] at hsched
      cases hsched
      rfl
    · rw [if_neg hc] at hsched
      rw [libScheduleGo_only_reps _ _ _ _ hsched]
  have hlen : e2.fileContents.length = libStartOff e0 e1 + libNeeded e0 reloc e1 + 1 := by
    have hheaders : e2.fileContents.length = wr.1.fileContents.length := by
      by_cases h2 : reloc = true
      · rw [if_pos h2] at h
        exact rewriteHeaders_length h
      · rw [if_neg h2] at h
        exact rewriteHeaders_length h
    have hwrl := writeReplacedSections_length hwr
    have hn4 := (normalizeNoteSegments_fileContents hnorm).1
    rw [hheaders, hwrl]
    show e4.fileContents.length = _
    rw [hn4]
    show (listResize _ _).length = _
    rw [listResize_length]
  refine ⟨reloc, e1, hrel, hsched, hfc1, hlen, ?_⟩
  refine ⟨_, _, _, _, wr, hwr, ?_⟩
  rw [hlen]
  omega

/-- Witness for C5 on a concrete library commit. -/
theorem C5_library_grow_witness :
    ∃ reloc e1,
      libRelocatePhtGo wLib (libPhtSize wLib) 1 wLib.e_shnum = .ok reloc ∧
      (if reloc then pure wLib else libScheduleGo (libPhtSize wLib) wLib 1 wLib.e_shnum) = .ok e1 ∧
      e1.fileContents = wLib.fileContents ∧
      (∃ e2, rewriteSectionsLibrary wLib = .ok e2 ∧
        e2.fileContents.length = libStartOff wLib e1 + libNeeded wLib reloc e1 + 1) := by
  obtain ⟨e2, he⟩ := exSuccess_elim (x := rewriteSectionsLibrary wLib) (by decide)
  obtain ⟨reloc, e1, h1, h2, h3, h4, h5⟩ := C5_library_grow wLib e2 he
  exact ⟨reloc, e1, h1, h2, h3, e2, he, h4⟩

/-! ## C7: the symbol-table st_shndx translation -/

theorem elfAt_ok {α : Type} {l : List α} {i : Nat} {a : α} (h : elfAt l i = .ok a) :
    l.get? i = some a := by
  delta elfAt at h
  cases hg : l.get? i with
  | none => rw [hg] at h; cases h
  | some b =>
    rw [hg] at h
    cases h
    rfl

/-- C7: after commit, for every SHT_SYMTAB / SHT_DYNSYM entry whose old
st_shndx is neither SHN_UNDEF nor in the reserved range: if the old index
is beyond the captured old-index-to-name map, a warning is emitted (the
Bool flag) and the entry is untouched; otherwise the new st_shndx is the
current index of the section with the captured name (getSectionIndex on
the post-commit tables), all other fields are kept, and for STT_SECTION
symbols st_value becomes the new sh_addr of that section.  The last
conjunct lifts the per-entry fact to the whole table walk. -/
theorem C7_symbol_shndx (e : ElfFile) (sym : Sym)
    (h1 : sym.st_shndx ≠ 0) (h2 : sym.st_shndx < SHN_LORESERVE) :
    (sym.st_shndx ≥ e.sectionsByOldIndex.length → rewriteSymEntry e sym = .ok (sym, true)) ∧
    (∀ sym2 w, rewriteSymEntry e sym = .ok (sym2, w) →
      sym.st_shndx < e.sectionsByOldIndex.length →
      w = false ∧
      ∃ name, e.sectionsByOldIndex.get? sym.st_shndx = some name ∧
        getSectionIndex e name = .ok sym2.st_shndx ∧
        sym2.st_name = sym.st_name ∧ sym2.st_info = sym.st_info ∧
        sym2.st_other = sym.st_other ∧ sym2.st_size = sym.st_size ∧
        (sym.st_info % 16 = STT_SECTION →
          ∃ shdr, elfAt e.shdrs sym2.st_shndx = .ok shdr ∧ sym2.st_value = shdr.sh_addr) ∧
        (sym.st_info % 16 ≠ STT_SECTION → sym2.st_value = sym.st_value)) ∧
    (∀ syms res, rewriteSymsGo e syms = .ok res →
      res.length = syms.length ∧
      ∀ k sk, syms.get? k = some sk →
        ∃ rk w, res.get? k = some rk ∧ rewriteSymEntry e sk = .ok (rk, w)) := by
  refine ⟨?_, ?_, ?_⟩
  · intro hge
    unfold rewriteSymEntry
    rw [if_pos ⟨h1, h2⟩, if_pos hge]
  · intro sym2 w h hlt
    unfold rewriteSymEntry at h
    rw [if_pos ⟨h1, h2⟩, if_neg (by omega)] at h
    obtain ⟨secName, hsec, h⟩ := exBindOk h
    by_cases hemp : secName = []
    · rw [if_pos hemp] at h
      cases h
    rw [if_neg hemp] at h
    obtain ⟨newIndex, hidx, h⟩ := exBindOk h
    have hget := elfAt_ok hsec
    by_cases hstt : sym.st_info % 16 = STT_SECTION
    · rw [if_pos hstt] at h
      obtain ⟨shdr, hshdr, h⟩ := exBindOk h
      simp only [pure, Except.pure, Except.ok.injEq, Prod.mk.injEq] at h
      obtain ⟨hsym2, hw⟩ := h
      subst hw
      subst hsym2
      refine ⟨rfl, secName, hget, hidx, rfl, rfl, rfl, rfl, ?_, ?_⟩
      · intro _
        exact ⟨shdr, hshdr, rfl⟩
      · intro hne
        exact absurd hstt hne
    · rw [if_neg hstt] at h
      simp only [pure, Except.pure, Except.ok.injEq, Prod.mk.injEq] at h
      obtain ⟨hsym2, hw⟩ := h
      subst hw
      subst hsym2
      refine ⟨rfl, secName, hget, hidx, rfl, rfl, rfl, rfl, ?_, ?_⟩
      · intro hc
        exact absurd hc hstt
      · intro _
        rfl
  · intro syms
    induction syms with
    | nil =>
      intro res h
      cases h
      exact ⟨rfl, fun k sk hk => by cases k <;> cases hk⟩
    | cons s rest ih =>
      intro res h
      unfold rewriteSymsGo at h
      obtain ⟨pr, hpr, h⟩ := exBindOk h
      obtain ⟨rs, hrs, h⟩ := exBindOk h
      cases h
      obtain ⟨hlen, hpt⟩ := ih rs hrs
      refine ⟨by simp [hlen], ?_⟩
      intro k sk hk
      cases k with
      | zero =>
        cases hk
        exact ⟨pr.1, pr.2, rfl, by simpa using hpr⟩
      | succ k =>
        obtain ⟨rk, w, hr1, hr2⟩ := hpt k sk hk
        exact ⟨rk, w, hr1, hr2⟩

/-- Witness for C7 at a concrete entry: wBase with a symbol that used to
point at old index 2 (.bar). -/
theorem C7_symbol_shndx_witness :
    ∃ sym2 w,
      rewriteSymEntry wBase { st_name := 9, st_info := 3, st_other := 0, st_shndx := 2,
                              st_value := 77, st_size := 0 } = .ok (sym2, w) ∧
      w = false ∧
      ∃ name, wBase.sectionsByOldIndex.get? 2 = some name ∧
        getSectionIndex wBase name = .ok sym2.st_shndx := by
  obtain ⟨pr, hpr⟩ := exSuccess_elim
    (x := rewriteSymEntry wBase { st_name := 9, st_info := 3, st_other := 0, st_shndx := 2,
                                  st_value := 77, st_size := 0 }) (by decide)
  have hmain := (C7_symbol_shndx wBase
    { st_name := 9, st_info := 3, st_other := 0, st_shndx := 2, st_value := 77, st_size := 0 }
    (by decide) (by decide)).2.1 pr.1 pr.2 (by rw [← hpr]) (by decide)
  obtain ⟨hw, name, hn1, hn2, _⟩ := hmain
  exact ⟨pr.1, pr.2, by rw [← hpr], hw, name, hn1, hn2⟩

/-! ## C4: PT_NOTE normalization -/

theorem roundUp_ge {n m : Nat} (hm : m ≠ 0) : n ≤ roundUp n m := by
  unfold roundUp
  split
  · omega
  · rename_i hn
    have hlt : n - 1 < ((n - 1) / m + 1) * m :=
      (Nat.div_lt_iff_lt_mul (Nat.pos_of_ne_zero hm)).mp
        (Nat.lt_add_one ((n - 1) / m))
    omega

theorem findNoteSection_spec :
    ∀ (shdrs : List Shdr) (curr c sz : Nat),
      findNoteSection shdrs curr = some (c, sz) →
      ∃ s, s ∈ shdrs ∧ s.sh_type = SHT_NOTE ∧ s.sh_offset = c ∧ s.sh_size = sz ∧
        c = roundUp curr s.sh_addralign := by
  intro shdrs
  induction shdrs with
  | nil => intro curr c sz h; cases h
  | cons s rest ih =>
    intro curr c sz h
    unfold findNoteSection at h
    split at h
    · cases h
      rename_i hcond
      exact ⟨s, List.mem_cons_self s rest, hcond.1, hcond.2, rfl, rfl⟩
    · obtain ⟨t, ht, h1, h2, h3, h4⟩ := ih curr c sz h
      exact ⟨t, List.mem_cons_of_mem s ht, h1, h2, h3, h4⟩

/-- A program header derived from a parent PT_NOTE segment for one
contained SHT_NOTE section: same type, flags and alignment; offset,
vaddr and paddr displaced by the section's position in the segment;
file and memory size equal to the section size. -/
def noteDerived (shdrs : List Shdr) (parent h : Phdr) : Prop :=
  ∃ s, s ∈ shdrs ∧ s.sh_type = SHT_NOTE ∧ ∃ d,
    h.p_offset = parent.p_offset + d ∧ s.sh_offset = parent.p_offset + d ∧
    h.p_vaddr = parent.p_vaddr + d ∧ h.p_paddr = parent.p_paddr + d ∧
    h.p_filesz = s.sh_size ∧ h.p_memsz = s.sh_size ∧
    h.p_type = parent.p_type ∧ h.p_flags = parent.p_flags ∧ h.p_align = parent.p_align

theorem normSegGo_emits (shdrs : List Shdr) (parent : Phdr) (startOff endOff : Nat)
    (halign : ∀ s ∈ shdrs, s.sh_type = SHT_NOTE → s.sh_addralign ≠ 0)
    (hstart : startOff = parent.p_offset) :
    ∀ fuel curr slot acc res,
      startOff ≤ curr →
      (∀ h ∈ acc, noteDerived shdrs parent h) →
      (slot = parent ∨ (noteDerived shdrs parent slot ∧ slot.p_offset = startOff)) →
      normSegGo shdrs parent startOff endOff slot acc curr fuel = .ok res →
      (∀ h ∈ res.2, noteDerived shdrs parent h) ∧
      (res.1 = parent ∨ (noteDerived shdrs parent res.1 ∧ res.1.p_offset = startOff)) := by
  intro fuel
  induction fuel with
  | zero => intro curr slot acc res hc hacc hslot h; cases h
  | succ fuel ih =>
    intro curr slot acc res hc hacc hslot h
    unfold normSegGo at h
    by_cases hlt : curr < endOff
    · rw [if_pos hlt] at h
      cases hf : findNoteSection shdrs curr with
      | none => rw [hf] at h; cases h
      | some p =>
        obtain ⟨c, sz⟩ := p
        rw [hf] at h
        dsimp only [] at h
        by_cases hsz : sz = 0
        · rw [if_pos hsz] at h; cases h
        rw [if_neg hsz] at h
        by_cases hend : c + sz > endOff
        · rw [if_pos hend] at h; cases h
        rw [if_neg hend] at h
        obtain ⟨s, hmem, htype, hoff, hsize, hround⟩ := findNoteSection_spec shdrs curr c sz hf
        have hcge : startOff ≤ c := by
          have := roundUp_ge (n := curr) (halign s hmem htype)
          omega
        have hderiv : noteDerived shdrs parent
            { parent with
              p_offset := c
              p_vaddr := parent.p_vaddr + (c - startOff)
              p_paddr := parent.p_paddr + (c - startOff)
              p_filesz := sz
              p_memsz := sz } := by
          refine ⟨s, hmem, htype, c - startOff, ?_, ?_, rfl, rfl, by simp [hsize], by simp [hsize],
            rfl, rfl, rfl⟩
          · show c = parent.p_offset + (c - startOff)
            omega
          · rw [hoff]
            omega
        by_cases hcs : c = startOff
        · rw [if_pos hcs] at h
          exact ih (c + sz) _ acc res (by omega) hacc
            (Or.inr ⟨hderiv, by simp [hcs]⟩) h
        · rw [if_neg hcs] at h
          refine ih (c + sz) slot (acc ++ [_]) res (by omega) ?_ hslot h
          intro x hx
          rcases List.mem_append.mp hx with hx | hx
          · exact hacc x hx
          · rw [List.mem_singleton.mp hx]
            exact hderiv
    · rw [if_neg hlt] at h
      cases h
      exact ⟨hacc, hslot⟩

/-- C4 (amended): PT_NOTE normalization derives one program header per
SHT_NOTE section matched while walking the segment — each derived header
copies type, flags and alignment from the parent and displaces
p_offset / p_vaddr / p_paddr by the section's position in the segment,
with p_filesz = p_memsz = the section's size — but the derived header
replaces the original slot only when it starts exactly at the segment's
start offset; otherwise the original header is left in the slot and all
derived headers are appended.  The walk fails with the non-contiguous
message when the scan finds no SHT_NOTE section at the current offset
rounded up to its sh_addralign, or when the first such section has size
zero; it fails with the partially-mapped message when the matched section
extends past the segment end.  Normalization is a no-op when no pending
edit is of type SHT_NOTE. -/
theorem C4_note_normalization :
    (∀ (e : ElfFile), hasNoteEdit e = .ok false → normalizeNoteSegments e = .ok e) ∧
    (∀ (shdrs : List Shdr) (parent : Phdr) (startOff endOff : Nat) (slot : Phdr)
       (acc : List Phdr) (curr fuel : Nat),
      curr < endOff →
      (findNoteSection shdrs curr = none ∨ ∃ c, findNoteSection shdrs curr = some (c, 0)) →
      normSegGo shdrs parent startOff endOff slot acc curr (fuel + 1) = .error noteNonContigMsg) ∧
    (∀ (shdrs : List Shdr) (parent : Phdr) (startOff endOff : Nat) (slot : Phdr)
       (acc : List Phdr) (curr fuel c sz : Nat),
      curr < endOff →
      findNoteSection shdrs curr = some (c, sz) → sz ≠ 0 → c + sz > endOff →
      normSegGo shdrs parent startOff endOff slot acc curr (fuel + 1) = .error notePartialMsg) ∧
    (∀ (shdrs : List Shdr) (phdr : Phdr) (res : Phdr × List Phdr),
      (∀ s ∈ shdrs, s.sh_type = SHT_NOTE → s.sh_addralign ≠ 0) →
      normalizeSegment shdrs phdr = .ok res →
      (∀ h ∈ res.2, noteDerived shdrs phdr h) ∧
      (res.1 = phdr ∨ (noteDerived shdrs phdr res.1 ∧ res.1.p_offset = phdr.p_offset))) := by
  refine ⟨?_, ?_, ?_, ?_⟩
  · intro e h
    delta normalizeNoteSegments
    rw [h]
    rfl
  · intro shdrs parent startOff endOff slot acc curr fuel hlt hf
    unfold normSegGo
    rw [if_pos hlt]
    rcases hf with hf | ⟨c, hf⟩
    · rw [hf]
    · rw [hf]
      dsimp only []
      rw [if_pos rfl]
  · intro shdrs parent startOff endOff slot acc curr fuel c sz hlt hf hsz hend
    unfold normSegGo
    rw [if_pos hlt, hf]
    dsimp only []
    rw [if_neg hsz, if_pos hend]
  · intro shdrs phdr res halign h
    unfold normalizeSegment at h
    dsimp only [] at h
    by_cases hc : segmentHasSection shdrs phdr.p_offset (phdr.p_offset + phdr.p_filesz) = true
    · rw [if_neg (not_not_intro hc)] at h
      exact normSegGo_emits shdrs phdr phdr.p_offset (phdr.p_offset + phdr.p_filesz)
        halign rfl _ phdr.p_offset phdr [] res (le_refl _)
        (fun x hx => absurd hx (List.not_mem_nil x)) (Or.inl rfl) h
    · rw [if_pos hc] at h
      cases h
      exact ⟨fun x hx => absurd hx (List.not_mem_nil x), Or.inl rfl⟩

/-- The note section of the counterexample state: starts at offset 4
with alignment 4, inside a PT_NOTE segment that starts at offset 2. -/
def wNoteShdr : Shdr :=
  { wNull with sh_name := 1, sh_type := 7, sh_offset := 4, sh_addralign := 4, sh_size := 2 }

def wNotePar : Phdr :=
  { p_type := 4, p_flags := 4, p_offset := 2, p_vaddr := 1002, p_paddr := 1002,
    p_filesz := 4, p_memsz := 4, p_align := 4 }

/-- The header the walk derives for wNoteShdr. -/
def wNoteDerived : Phdr :=
  { p_type := 4, p_flags := 4, p_offset := 4, p_vaddr := 1004, p_paddr := 1004,
    p_filesz := 2, p_memsz := 2, p_align := 4 }

/-- A state with one SHT_NOTE section, a pending edit on it, and one
PT_NOTE segment that contains the section but starts 2 bytes before it. -/
def wNoteState : ElfFile :=
  { wBase with
    e_phnum := 1
    phdrs := [wNotePar]
    shdrs := [wNull, wNoteShdr]
    e_shnum := 2
    sectionsByOldIndex := [[], wFooName]
    replacedSections := [(wFooName, [9])] }

/-- Counterexample to C4 as stated: the segment contains exactly one
SHT_NOTE section, yet normalization leaves the original header in the
slot (it does not reuse it for the derived header, because the first
contained section starts above the segment start after alignment
rounding) and appends the derived header, so the segment is covered by
two headers instead of one per contained section. -/
theorem C4_counterexample :
    normalizeNoteSegments wNoteState =
      .ok { wNoteState with phdrs := [wNotePar, wNoteDerived], e_phnum := 2 } ∧
    (wNoteState.shdrs.filter (fun s => s.sh_type = SHT_NOTE)).length = 1 ∧
    wNotePar ≠ wNoteDerived ∧
    wNotePar.p_filesz = 4 ∧ wNoteDerived.p_filesz = 2 := by
  exact ⟨by decide, by decide, by decide, rfl, rfl⟩

/-- Witness for C4: the error parts at concrete inputs (an empty section
table cannot match, giving the non-contiguous error; a matched section
overrunning the segment gives the partially-mapped error) and the
success part on the counterexample state's section table. -/
theorem C4_note_normalization_witness :
    normalizeNoteSegments wBase = .ok wBase ∧
    normSegGo [] wNotePar 2 6 wNotePar [] 2 5 = .error noteNonContigMsg ∧
    normSegGo [wNoteShdr] wNotePar 2 5 wNotePar [] 2 5 = .error notePartialMsg ∧
    ∃ res, normalizeSegment [wNoteShdr] wNotePar = .ok res ∧
      (∀ h ∈ res.2, noteDerived [wNoteShdr] wNotePar h) ∧
      (res.1 = wNotePar ∨ (noteDerived [wNoteShdr] wNotePar res.1 ∧
        res.1.p_offset = wNotePar.p_offset)) := by
  refine ⟨?_, ?_, ?_, ?_⟩
  · exact C4_note_normalization.1 wBase (by decide)
  · exact C4_note_normalization.2.1 [] wNotePar 2 6 wNotePar [] 2 4 (by decide) (Or.inl (by decide))
  · exact C4_note_normalization.2.2.1 [wNoteShdr] wNotePar 2 5 wNotePar [] 2 4 4 2
      (by decide) (by decide) (by decide) (by decide)
  · obtain ⟨res, hres⟩ := exSuccess_elim (x := normalizeSegment [wNoteShdr] wNotePar) (by decide)
    obtain ⟨ha, hb⟩ := C4_note_normalization.2.2.2 [wNoteShdr] wNotePar res
      (by decide) hres
    exact ⟨res, hres, ha, hb⟩

/-! ## C3: the executable-strategy walk up to the last replaced section -/

theorem replaceSection_reps_insert {e : ElfFile} {name : List Char} {size : Nat} {e2 : ElfFile}
    (h : replaceSection e name size = .ok e2) :
    ∃ buf, e2.replacedSections = secInsert e.replacedSections name buf ∧ buf.length = size := by
  delta replaceSection at h
  cases hlook : secLookup e.replacedSections name with
  | some s =>
    rw [hlook] at h
    cases h
    exact ⟨_, rfl, listResize_length s size⟩
  | none =>
    rw [hlook] at h
    obtain ⟨shdr, hs, h⟩ := exBindOk h
    cases h
    exact ⟨_, rfl, listResize_length _ size⟩

theorem getSectionName_congr {e e2 : ElfFile} (h : e2.sectionNames = e.sectionNames) :
    getSectionName e2 = getSectionName e :=
  funext fun s => by unfold getSectionName; rw [h]

/-- The name the walk's prevSection variable holds when it reaches index
j, for a walk that entered index i holding prev0: the incoming name at
the entry index, the name of section j-1 afterwards. -/
def walkPrevName (e : ElfFile) (prev0 : List Char) (i j : Nat) : Except Err (List Char) :=
  if j = i then .ok prev0
  else (elfAt e.shdrs (j - 1)) >>= fun s => getSectionName e s

/-- After the walk, the section at index k has a pending edit; if it had
none when the walk reached it, the edit is a pass-through buffer of the
section's current size. -/
def walkVisited (e : ElfFile) (res : ExecWalkResult) (k : Nat) : Prop :=
  ∃ s n, elfAt e.shdrs k = .ok s ∧ getSectionName e s = .ok n ∧
    hasReplacedSection res.file n = true ∧
    (hasReplacedSection e n = false →
      ∃ buf, secLookup res.file.replacedSections n = some buf ∧ buf.length = s.sh_size)

/-- The sections at indices i .. i+n-1 have pairwise distinct names. -/
def namesDistinctIn (e : ElfFile) (i n : Nat) : Prop :=
  ∀ k1 k2 s1 s2 n1 n2, i ≤ k1 → k1 < k2 → k2 < i + n →
    elfAt e.shdrs k1 = .ok s1 → elfAt e.shdrs k2 = .ok s2 →
    getSectionName e s1 = .ok n1 → getSectionName e s2 = .ok n2 → n1 ≠ n2

theorem walkPrevName_step {e e2 : ElfFile} {prev nm pk : List Char} {i k : Nat} {s : Shdr}
    (hsh : e2.shdrs = e.shdrs) (hsn : e2.sectionNames = e.sectionNames)
    (hs : elfAt e.shdrs i = .ok s) (hn : getSectionName e s = .ok nm)
    (hk : i + 1 ≤ k)
    (h : walkPrevName e2 nm (i + 1) k = .ok pk) :
    walkPrevName e prev i k = .ok pk := by
  by_cases hj : k = i + 1
  · subst hj
    unfold walkPrevName at h
    rw [if_pos rfl] at h
    unfold walkPrevName
    rw [if_neg (by omega : ¬ i + 1 = i), Nat.add_sub_cancel, hs]
    show getSectionName e s = Except.ok pk
    rw [hn]
    exact h
  · unfold walkPrevName at h ⊢
    rw [if_neg hj, hsh, getSectionName_congr hsn] at h
    rw [if_neg (by omega : ¬ k = i)]
    exact h

theorem walkVisited_congr {e e2 : ElfFile} {res : ExecWalkResult} {k : Nat}
    {name : List Char} {buf : List Nat}
    (hsh : e2.shdrs = e.shdrs) (hsn : e2.sectionNames = e.sectionNames)
    (hins : e2.replacedSections = secInsert e.replacedSections name buf)
    (hne : ∀ s n, elfAt e.shdrs k = .ok s → getSectionName e s = .ok n → n ≠ name)
    (h : walkVisited e2 res k) : walkVisited e res k := by
  obtain ⟨s, n, ha, hg, hrep, hcond⟩ := h
  rw [hsh] at ha
  rw [getSectionName_congr hsn] at hg
  refine ⟨s, n, ha, hg, hrep, fun hf => hcond ?_⟩
  unfold hasReplacedSection at hf ⊢
  rw [hins, secLookup_insert_other _ _ _ _ (hne s n ha hg)]
  exact hf

theorem execWalkGo_preserves :
    ∀ (r lr : Nat) (e : ElfFile) (i so sa : Nat) (prev : List Char)
      (res : ExecWalkResult) (nm : List Char) (b : List Nat),
      execWalkGo lr e i so sa prev r = .ok res →
      secLookup e.replacedSections nm = some b →
      (∀ k s n, i ≤ k → k < i + r → elfAt e.shdrs k = .ok s →
        getSectionName e s = .ok n → n ≠ nm) →
      secLookup res.file.replacedSections nm = some b := by
  intro r
  induction r with
  | zero =>
    intro lr e i so sa prev res nm b h hb hk
    simp only [execWalkGo] at h
    cases h
    exact hb
  | succ r ih =>
    intro lr e i so sa prev res nm b h hb hk
    simp only [execWalkGo] at h
    obtain ⟨shdr, hshdr, h⟩ := exBindOk h
    obtain ⟨name, hname, h⟩ := exBindOk h
    by_cases hstop : (shdr.sh_type = SHT_PROGBITS ∧ name ≠ interpName) ∨ prev = dynstrName
    · rw [if_pos hstop] at h
      cases h
      exact hb
    · rw [if_neg hstop] at h
      obtain ⟨e2, he2, h⟩ := exBindOk h
      by_cases hrep : hasReplacedSection e name
      · rw [if_pos hrep] at he2
        simp only [pure, Except.pure, Except.ok.injEq] at he2
        subst he2
        exact ih lr e (i + 1) so sa name res nm b h hb
          (fun k s n h1 h2 h3 h4 => hk k s n (by omega) (by omega) h3 h4)
      · rw [if_neg hrep] at he2
        have heq := replaceSection_only_reps he2
        obtain ⟨buf, hins, hlen⟩ := replaceSection_reps_insert he2
        have hsh2 : e2.shdrs = e.shdrs := by rw [heq]
        have hsn2 : e2.sectionNames = e.sectionNames := by rw [heq]
        have hne : name ≠ nm := hk i shdr name (le_refl i) (by omega) hshdr hname
        have hb2 : secLookup e2.replacedSections nm = some b := by
          rw [hins, secLookup_insert_other _ _ _ _ (Ne.symm hne)]
          exact hb
        refine ih lr e2 (i + 1) so sa name res nm b h hb2 ?_
        intro k s n h1 h2 h3 h4
        rw [hsh2] at h3
        rw [getSectionName_congr hsn2] at h4
        exact hk k s n (by omega) (by omega) h3 h4

/-- C3 (amended): in the executable strategy's walk from index 1 up to
the last replaced index, the walk stops at the first section in the range
— whether or not that section has a pending edit — that is of type
SHT_PROGBITS with a name other than .interp, or whose predecessor in the
walk is named .dynstr; on stopping, startOffset and startAddr are taken
from that section's header and lastReplaced becomes the preceding index.
Every section passed before the stopping point (or the whole range when
nothing stops the walk, in which case startOffset, startAddr and
lastReplaced keep their incoming values) ends the walk with a pending
edit, and if it had none at walk entry its edit is a pass-through buffer
of the section's current size.  The original claim exempted edited
sections from the stop test; the code does not. -/
theorem C3_executable_walk :
    ∀ (r lr : Nat) (e : ElfFile) (i so sa : Nat) (prev : List Char) (res : ExecWalkResult),
      namesDistinctIn e i r →
      execWalkGo lr e i so sa prev r = .ok res →
      res.file.shdrs = e.shdrs ∧ res.file.sectionNames = e.sectionNames ∧
      ((res.startOffset = so ∧ res.startAddr = sa ∧ res.lastReplaced = lr ∧
        ∀ k, i ≤ k → k < i + r → walkVisited e res k) ∨
       ∃ j s n prevj, i ≤ j ∧ j < i + r ∧
         elfAt e.shdrs j = .ok s ∧ getSectionName e s = .ok n ∧
         walkPrevName e prev i j = .ok prevj ∧
         ((s.sh_type = SHT_PROGBITS ∧ n ≠ interpName) ∨ prevj = dynstrName) ∧
         res.startOffset = s.sh_offset ∧ res.startAddr = s.sh_addr ∧
         res.lastReplaced = j - 1 ∧
         (∀ k, i ≤ k → k < j → walkVisited e res k) ∧
         (∀ k, i ≤ k → k < j → ∃ sk nk pk,
            elfAt e.shdrs k = .ok sk ∧ getSectionName e sk = .ok nk ∧
            walkPrevName e prev i k = .ok pk ∧
            ¬((sk.sh_type = SHT_PROGBITS ∧ nk ≠ interpName) ∨ pk = dynstrName))) := by
  intro r
  induction r with
  | zero =>
    intro lr e i so sa prev res hdist h
    simp only [execWalkGo] at h
    cases h
    exact ⟨rfl, rfl, Or.inl ⟨rfl, rfl, rfl, fun k h1 h2 => absurd h2 (by omega)⟩⟩
  | succ r ih =>
    intro lr e i so sa prev res hdist h
    simp only [execWalkGo] at h
    obtain ⟨shdr, hshdr, h⟩ := exBindOk h
    obtain ⟨name, hname, h⟩ := exBindOk h
    by_cases hstop : (shdr.sh_type = SHT_PROGBITS ∧ name ≠ interpName) ∨ prev = dynstrName
    · rw [if_pos hstop] at h
      cases h
      refine ⟨rfl, rfl, Or.inr ⟨i, shdr, name, prev, le_refl i, by omega, hshdr, hname,
        ?_, hstop, rfl, rfl, rfl, fun k h1 h2 => absurd h2 (by omega),
        fun k h1 h2 => absurd h2 (by omega)⟩⟩
      unfold walkPrevName
      rw [if_pos rfl]
    · rw [if_neg hstop] at h
      obtain ⟨e2, he2, h⟩ := exBindOk h
      by_cases hrep : hasReplacedSection e name
      · rw [if_pos hrep] at he2
        simp only [pure, Except.pure, Except.ok.injEq] at he2
        subst he2
        have hdist2 : namesDistinctIn e (i + 1) r :=
          fun k1 k2 s1 s2 n1 n2 h1 h2 h3 a1 a2 g1 g2 =>
            hdist k1 k2 s1 s2 n1 n2 (by omega) h2 (by omega) a1 a2 g1 g2
        obtain ⟨hsh, hsn, hcase⟩ := ih lr e (i + 1) so sa name res hdist2 h
        have hreps : (secLookup e.replacedSections name).isSome = true := hrep
        obtain ⟨b, hb⟩ := Option.isSome_iff_exists.mp hreps
        have hpres := execWalkGo_preserves r lr e (i + 1) so sa name res name b h hb
          (fun k s n h1 h2 h3 h4 =>
            Ne.symm (hdist i k shdr s name n (le_refl i) (by omega) (by omega)
              hshdr h3 hname h4))
        have hvisI : walkVisited e res i := by
          refine ⟨shdr, name, hshdr, hname, ?_, fun hf => Bool.noConfusion (hf ▸ hrep)⟩
          unfold hasReplacedSection
          rw [hpres]
          rfl
        refine ⟨hsh, hsn, ?_⟩
        rcases hcase with ⟨ha, hb', hc, hvis⟩ | ⟨j, s, n, prevj, hj1, hj2, he1, hg1,
            hpj, hcond, ho, ha', hl, hvis, hmin⟩
        · refine Or.inl ⟨ha, hb', hc, fun k h1 h2 => ?_⟩
          rcases Nat.lt_or_ge k (i + 1) with hk | hk
          · have : k = i := by omega
            subst this
            exact hvisI
          · exact hvis k hk (by omega)
        · refine Or.inr ⟨j, s, n, prevj, by omega, by omega, he1, hg1,
            walkPrevName_step rfl rfl hshdr hname hj1 hpj, hcond, ho, ha', hl,
            fun k h1 h2 => ?_, fun k h1 h2 => ?_⟩
          · rcases Nat.lt_or_ge k (i + 1) with hk | hk
            · have : k = i := by omega
              subst this
              exact hvisI
            · exact hvis k hk h2
          · rcases Nat.lt_or_ge k (i + 1) with hk | hk
            · have : k = i := by omega
              subst this
              exact ⟨shdr, name, prev, hshdr, hname,
                by unfold walkPrevName; rw [if_pos rfl], hstop⟩
            · obtain ⟨sk, nk, pk, ak, gk, pkh, hnot⟩ := hmin k hk h2
              exact ⟨sk, nk, pk, ak, gk,
                walkPrevName_step rfl rfl hshdr hname hk pkh, hnot⟩
      · rw [if_neg hrep] at he2
        have heq := replaceSection_only_reps he2
        obtain ⟨buf, hins, hlen⟩ := replaceSection_reps_insert he2
        have hsh2 : e2.shdrs = e.shdrs := by rw [heq]
        have hsn2 : e2.sectionNames = e.sectionNames := by rw [heq]
        have hdist2 : namesDistinctIn e2 (i + 1) r := by
          intro k1 k2 s1 s2 n1 n2 h1 h2 h3 a1 a2 g1 g2
          rw [hsh2] at a1 a2
          rw [getSectionName_congr hsn2] at g1 g2
          exact hdist k1 k2 s1 s2 n1 n2 (by omega) h2 (by omega) a1 a2 g1 g2
        obtain ⟨hsh, hsn, hcase⟩ := ih lr e2 (i + 1) so sa name res hdist2 h
        have hneAt : ∀ k, i + 1 ≤ k → k < i + (r + 1) →
            ∀ s n, elfAt e.shdrs k = .ok s → getSectionName e s = .ok n → n ≠ name :=
          fun k hk1 hk2 s n a g =>
            Ne.symm (hdist i k shdr s name n (le_refl i) (by omega) (by omega)
              hshdr a hname g)
        have hbufIns : secLookup e2.replacedSections name = some buf := by
          rw [hins]
          exact secLookup_insert_self _ _ _
        have hpres := execWalkGo_preserves r lr e2 (i + 1) so sa name res name buf h hbufIns
          (fun k s n h1 h2 h3 h4 => by
            rw [hsh2] at h3
            rw [getSectionName_congr hsn2] at h4
            exact hneAt k h1 (by omega) s n h3 h4)
        have hvisI : walkVisited e res i := by
          refine ⟨shdr, name, hshdr, hname, ?_, fun hf => ⟨buf, hpres, hlen⟩⟩
          unfold hasReplacedSection
          rw [hpres]
          rfl
        refine ⟨hsh.trans hsh2, hsn.trans hsn2, ?_⟩
        rcases hcase with ⟨ha, hb', hc, hvis⟩ | ⟨j, s, n, prevj, hj1, hj2, he1, hg1,
            hpj, hcond, ho, ha', hl, hvis, hmin⟩
        · refine Or.inl ⟨ha, hb', hc, fun k h1 h2 => ?_⟩
          rcases Nat.lt_or_ge k (i + 1) with hk | hk
          · have : k = i := by omega
            subst this
            exact hvisI
          · exact walkVisited_congr hsh2 hsn2 hins (hneAt k hk (by omega))
              (hvis k hk (by omega))
        · rw [hsh2] at he1
          rw [getSectionName_congr hsn2] at hg1
          refine Or.inr ⟨j, s, n, prevj, by omega, by omega, he1, hg1,
            walkPrevName_step hsh2 hsn2 hshdr hname hj1 hpj, hcond, ho, ha', hl,
            fun k h1 h2 => ?_, fun k h1 h2 => ?_⟩
          · rcases Nat.lt_or_ge k (i + 1) with hk | hk
            · have : k = i := by omega
              subst this
              exact hvisI
            · exact walkVisited_congr hsh2 hsn2 hins (hneAt k hk (by omega))
                (hvis k hk h2)
          · rcases Nat.lt_or_ge k (i + 1) with hk | hk
            · have : k = i := by omega
              subst this
              exact ⟨shdr, name, prev, hshdr, hname,
                by unfold walkPrevName; rw [if_pos rfl], hstop⟩
            · obtain ⟨sk, nk, pk, ak, gk, pkh, hnot⟩ := hmin k hk h2
              rw [hsh2] at ak
              rw [getSectionName_congr hsn2] at gk
              exact ⟨sk, nk, pk, ak, gk,
                walkPrevName_step hsh2 hsn2 hshdr hname hk pkh, hnot⟩

def wQuxName : List Char := [46, 113, 117, 120].map Char.ofNat

/-- Name table for the C3 counterexample: NUL, .foo NUL, .bar NUL,
.qux NUL. -/
def wCxNames : List Char :=
  [0, 46, 102, 111, 111, 0, 46, 98, 97, 114, 0, 46, 113, 117, 120, 0].map Char.ofNat

/-- A PROGBITS section named .foo. -/
def wCxP : Shdr :=
  { wNull with sh_name := 1, sh_type := 1, sh_offset := 100, sh_addr := 500, sh_size := 4 }

/-- A NOTE section named .bar. -/
def wCxN : Shdr :=
  { wNull with sh_name := 6, sh_type := 7, sh_offset := 110, sh_addr := 510, sh_size := 4 }

/-- The section named .qux that follows the edited range. -/
def wCxT : Shdr :=
  { wNull with sh_name := 11, sh_type := 7, sh_offset := 130, sh_addr := 530, sh_size := 4 }

/-- An ET_EXEC state whose sections 1 and 2 (.foo, .bar) both carry
pending edits; .foo is PROGBITS and not .interp. -/
def wExecCx : ElfFile :=
  { wBase with
    e_type := ET_EXEC
    e_shnum := 4
    shdrs := [wNull, wCxP, wCxN, wCxT]
    sectionNames := wCxNames
    sectionsByOldIndex := [[], wFooName, wBarName, wQuxName]
    replacedSections := [(wFooName, [1, 2, 3]), (wBarName, [4, 5])] }

/-- Counterexample to C3 as stated: every section in the walk range of
wExecCx is edited, so a walk that only stopped at non-edited
irreplaceable sections would run through and leave startOffset at the
offset of the section after the last replaced one (.qux at offset 130,
with lastReplaced 2); the code stops at the edited PROGBITS section .foo
anyway, yielding startOffset 100, startAddr 500 and lastReplaced 0. -/
theorem C3_counterexample :
    execWalk wExecCx = .ok ⟨wExecCx, wCxP.sh_offset, wCxP.sh_addr, 0⟩ ∧
    hasReplacedSection wExecCx wFooName = true ∧
    hasReplacedSection wExecCx wBarName = true ∧
    elfAt wExecCx.shdrs 1 = .ok wCxP ∧
    getSectionName wExecCx wCxP = .ok wFooName ∧
    elfAt wExecCx.shdrs 2 = .ok wCxN ∧
    getSectionName wExecCx wCxN = .ok wBarName ∧
    elfAt wExecCx.shdrs 3 = .ok wCxT ∧
    wCxP.sh_offset ≠ wCxT.sh_offset ∧ (0 : Nat) ≠ 2 := by
  decide

/-- Witness for C3 at a concrete input: the walk on wExecCx, entered with
the start offset and address of .qux, stops according to the amended
description. -/
theorem C3_executable_walk_witness :
    namesDistinctIn wExecCx 1 2 ∧
    ∃ res, execWalkGo 2 wExecCx 1 130 530 [] 2 = .ok res ∧
      res.file.shdrs = wExecCx.shdrs ∧ res.file.sectionNames = wExecCx.sectionNames ∧
      ((res.startOffset = 130 ∧ res.startAddr = 530 ∧ res.lastReplaced = 2 ∧
        ∀ k, 1 ≤ k → k < 3 → walkVisited wExecCx res k) ∨
       ∃ j s n prevj, 1 ≤ j ∧ j < 3 ∧
         elfAt wExecCx.shdrs j = .ok s ∧ getSectionName wExecCx s = .ok n ∧
         walkPrevName wExecCx [] 1 j = .ok prevj ∧
         ((s.sh_type = SHT_PROGBITS ∧ n ≠ interpName) ∨ prevj = dynstrName) ∧
         res.startOffset = s.sh_offset ∧ res.startAddr = s.sh_addr ∧
         res.lastReplaced = j - 1 ∧
         (∀ k, 1 ≤ k → k < j → walkVisited wExecCx res k) ∧
         (∀ k, 1 ≤ k → k < j → ∃ sk nk pk,
            elfAt wExecCx.shdrs k = .ok sk ∧ getSectionName wExecCx sk = .ok nk ∧
            walkPrevName wExecCx [] 1 k = .ok pk ∧
            ¬((sk.sh_type = SHT_PROGBITS ∧ nk ≠ interpName) ∨ pk = dynstrName))) := by
  have hdist : namesDistinctIn wExecCx 1 2 := by
    intro k1 k2 s1 s2 n1 n2 h1 h2 h3 a1 a2 g1 g2
    have hk1 : k1 = 1 := by omega
    have hk2 : k2 = 2 := by omega
    subst hk1
    subst hk2
    rw [show elfAt wExecCx.shdrs 1 = Except.ok wCxP from rfl] at a1
    rw [show elfAt wExecCx.shdrs 2 = Except.ok wCxN from rfl] at a2
    injection a1 with ha1
    injection a2 with ha2
    subst ha1
    subst ha2
    rw [show getSectionName wExecCx wCxP = Except.ok wFooName from by decide] at g1
    rw [show getSectionName wExecCx wCxN = Except.ok wBarName from by decide] at g2
    injection g1 with hg1
    injection g2 with hg2
    subst hg1
    subst hg2
    decide
  have h : execWalkGo 2 wExecCx 1 130 530 [] 2 = .ok ⟨wExecCx, 100, 500, 0⟩ := by decide
  have hm := C3_executable_walk 2 2 wExecCx 1 130 530 [] ⟨wExecCx, 100, 500, 0⟩ hdist h
  exact ⟨hdist, ⟨wExecCx, 100, 500, 0⟩, h, hm.1, hm.2.1, hm.2.2⟩

end Patchelf
